import Mathlib

/-!
# Flow language: shallow embedding and verification

This file embeds, in Lean 4, the parts of the Flow DSL compiler
(christianparpart/flow) that the specification's claims are about, and proves
or refutes each claim against the embedding.

Conventions of the embedding:
* Character streams are `List Char`; the C++ lexer's `currentChar_` is the
  head of the list and `EOF` is the empty list.
* C++ `std::string` values built by the lexer are `List Char`.
* The 64-bit signed `FlowNumber` accumulator is modelled as unbounded `Int`.
  Signed overflow is undefined behaviour in C++, so theorems only assert the
  numeric value of a lex where the mathematical value fits `int64_t`
  (below `2^63`); assertions about produced tokens and reported diagnostics
  are independent of the accumulator width.
* Diagnostics sinks are modelled by the list of messages pushed into them;
  source locations and printf-style message prefixes are elided, keeping the
  message type and the distinguishing text.
-/

/- ------------------------------------------------------------------
Diagnostics (src/flow/Diagnostics.h, Diagnostics.cc found appended to
src/flow/ir/ConstantValue.cc in this excerpt)
------------------------------------------------------------------ -/

/-- The closed diagnostics message-type enumeration from Diagnostics.h
(enum class Type). -/
inductive DiagnosticsType where
  | TokenError
  | SyntaxError
  | TypeError
  | Warning
  | LinkError
deriving DecidableEq, Repr

/-- A diagnostics message (struct Message). The source location and the
formatted prefix are elided; only the type and the message text are kept,
which is what the claims are about. -/
structure DiagMessage where
  type : DiagnosticsType
  text : String
deriving DecidableEq, Repr

/-- ConsoleReport::push_back: increments the error counter for every
message whose type is not Warning, then prints (printing elided). -/
def consolePush (errorCount : Nat) (m : DiagMessage) : Nat :=
  if m.type ≠ DiagnosticsType.Warning then errorCount + 1 else errorCount

/-- The error counter of a ConsoleReport after pushing the given message
sequence, starting from the zero-initialised counter
(ConsoleReport::ConsoleReport). -/
def consoleErrorCount (msgs : List DiagMessage) : Nat :=
  msgs.foldl consolePush 0

/-- ConsoleReport::containsFailures: errorCount_ != 0. -/
def consoleContainsFailures (msgs : List DiagMessage) : Bool :=
  consoleErrorCount msgs ≠ 0

/-- BufferedReport::containsFailures: count_if(type != Warning) != 0 over
the buffered message list. -/
def bufferedContainsFailures (msgs : List DiagMessage) : Bool :=
  (msgs.countP (fun m => m.type ≠ DiagnosticsType.Warning)) ≠ 0

/-- The four message types the specification calls failures. -/
def isFailureType (t : DiagnosticsType) : Bool :=
  t = DiagnosticsType.TokenError ∨ t = DiagnosticsType.SyntaxError ∨
  t = DiagnosticsType.TypeError ∨ t = DiagnosticsType.LinkError

/- ------------------------------------------------------------------
Constant pool (IRProgram::get, src/flow/ir/IRBuilder.h declaration and the
template definition appended to it from IRProgram.cc)
------------------------------------------------------------------ -/

/-- IRProgram::get on one per-type constant table: scan the table in order
for an entry whose structural value (table[i]->get()) equals the requested
literal; on a hit the stored constant is reused, otherwise a fresh constant
holding the literal is appended. The table is modelled as the list of
structural values; the chosen constant is identified by its table index. -/
def poolGet {α : Type} [DecidableEq α] (table : List α) (lit : α) :
    List α × Nat :=
  match table.findIdx? (fun c => c = lit) with
  | some i => (table, i)
  | none => (table ++ [lit], table.length)

/-- The constant-pool table resulting from a sequence of IRProgram::get
requests, starting from the empty table of a fresh IRProgram. -/
def poolRun {α : Type} [DecidableEq α] (reqs : List α) : List α :=
  reqs.foldl (fun t l => (poolGet t l).1) []

/- ------------------------------------------------------------------
Tokens (src/flow/lang/Token.h, enum class Token)
------------------------------------------------------------------ -/

/-- The token enumeration from Token.h (the COUNT sentinel is elided). -/
inductive Token where
  | Unknown
  | Boolean | Number | String | RawString | RegExp | IP | Cidr
  | NamedParam | InterpolatedStringFragment | InterpolatedStringEnd
  | Assign | OrAssign | AndAssign | PlusAssign | MinusAssign
  | MulAssign | DivAssign
  | Semicolon | Question | Colon
  | And | Or | Xor
  | Equal | UnEqual | Less | Greater | LessOrEqual | GreaterOrEqual
  | PrefixMatch | SuffixMatch | RegexMatch | In | HashRocket
  | Plus | Minus | Mul | Div | Mod | Shl | Shr | Comma | Pow
  | Not | BitNot | BitOr | BitAnd | BitXor
  | BrOpen | BrClose | RndOpen | RndClose | Begin | End
  | Var | Do | Handler | If | Then | Else | Unless
  | Match | On | While | For | Import | From
  | VoidType | BoolType | NumberType | StringType
  | Ident | RegExpGroup | Period | DblPeriod | Ellipsis | Comment | Eof
deriving DecidableEq, Repr

/- ------------------------------------------------------------------
Lexer: numeric, IP/CIDR and string literal paths (src/flow/lang/Lexer.cc)
------------------------------------------------------------------ -/

/-- The numeric value of an ASCII digit (currentChar - '0'). -/
def digitVal (c : Char) : Int :=
  (c.toNat : Int) - ('0'.toNat : Int)

/-- The digit-accumulation loop of Lexer::parseNumber and
Lexer::continueCidr: consume characters while
currentChar >= '0' and currentChar - '0' < base, accumulating
numberValue := numberValue * base + digit and appending each consumed
character to stringValue. Returns the accumulated value, the consumed
characters, and the unconsumed remainder of the stream. -/
def numLoop (base : Int) : List Char → Int → (Int × List Char × List Char)
  | [], n => (n, [], [])
  | c :: cs, n =>
      if '0'.toNat ≤ c.toNat ∧ digitVal c < base then
        let r := numLoop base cs (n * base + digitVal c)
        (r.1, c :: r.2.1, r.2.2)
      else (n, [], c :: cs)

/-- std::isdigit on the lexer's current character. -/
def isDigitChar (c : Char) : Bool :=
  '0'.toNat ≤ c.toNat ∧ c.toNat ≤ '9'.toNat

/-- std::isxdigit (Lexer::isHexChar) on the lexer's current character. -/
def isHexChar (c : Char) : Bool :=
  isDigitChar c ∨ ('a'.toNat ≤ c.toNat ∧ c.toNat ≤ 'f'.toNat) ∨
  ('A'.toNat ≤ c.toNat ∧ c.toNat ≤ 'F'.toNat)

/-- Whether the current character of the stream equals the given one
(false at EOF, where currentChar_ is the out-of-band EOF value). -/
def headIs (l : List Char) (c : Char) : Bool :=
  match l with
  | [] => false
  | x :: _ => x = c

/-- Whether Lexer::isHexChar holds for the current character
(false at EOF). -/
def headIsHex (l : List Char) : Bool :=
  match l with
  | [] => false
  | x :: _ => isHexChar x

/-- Whether std::isdigit holds for the current character (false at EOF). -/
def headIsDigit (l : List Char) : Bool :=
  match l with
  | [] => false
  | x :: _ => isDigitChar x

/-- The digit run at the front of the stream: the while-isdigit loops of
Lexer::parseNumber's dotted-quad components. Returns the consumed digits
and the remainder. -/
def digitSpan : List Char → (List Char × List Char)
  | [] => ([], [])
  | c :: cs =>
      if isDigitChar c then
        let r := digitSpan cs
        (c :: r.1, r.2)
      else ([], c :: cs)

/-- Outcome of the Lexer::parseNumber entry point. A tok outcome carries
the produced token, the numberValue accumulator, the stringValue buffer,
the token errors reported along the way, and the unconsumed remainder of
the stream. A continueIPv6 outcome represents the tail call into
Lexer::continueParseIPv6 with its argument and the lexer state at that
point. -/
inductive NumLex where
  | tok (t : Token) (numberValue : Int) (stringValue : List Char)
        (errs : List DiagMessage) (rest : List Char)
  | continueIPv6 (firstComplete : Bool) (stringValue : List Char)
        (rest : List Char)
deriving DecidableEq, Repr

/-- The token of a tok outcome (Unknown for a continuation outcome, which
no claim evaluates). -/
def NumLex.tokenOf : NumLex → Token
  | NumLex.tok t _ _ _ _ => t
  | NumLex.continueIPv6 _ _ _ => Token.Unknown

/-- The reported token errors of a tok outcome. -/
def NumLex.errsOf : NumLex → List DiagMessage
  | NumLex.tok _ _ _ e _ => e
  | NumLex.continueIPv6 _ _ _ => []

/-- The token error reported by Lexer::continueCidr when the prefix number
exceeds the address width (the formatted location prefix is elided). -/
def cidrRangeMsg : DiagMessage :=
  { type := DiagnosticsType.TokenError, text := "CIDR prefix out of range." }

/-- The token error reported by Lexer::continueCidr when no digit follows
the slash (the formatted location prefix is elided). -/
def cidrInvalidByteMsg : DiagMessage :=
  { type := DiagnosticsType.TokenError, text := "invalid byte" }

/-- Lexer::continueCidr: the current character is the '/' that the caller
saw; skip it (nextChar), require a digit (on failure numberValue keeps its
prior value n0 and an invalid-byte token error is reported), accumulate
the decimal prefix number into numberValue while appending the digits to
stringValue, then report "CIDR prefix out of range." and produce Unknown
if the number exceeds the address width, and produce Cidr otherwise.
range is 32 at the IPv4 call site (Lexer::parseNumber) and 128 at the
IPv6 call site (Lexer::continueParseIPv6). -/
def continueCidr (range : Nat) (n0 : Int) (sv : List Char)
    (input : List Char) : NumLex :=
  let rest := input.drop 1
  if ¬ headIsDigit rest then
    NumLex.tok Token.Unknown n0 sv [cidrInvalidByteMsg] rest
  else
    let r := numLoop 10 rest 0
    if r.1 > (range : Int) then
      NumLex.tok Token.Unknown r.1 (sv ++ r.2.1) [cidrRangeMsg] r.2.2
    else
      NumLex.tok Token.Cidr r.1 (sv ++ r.2.1) [] r.2.2

/-- Lexer::parseNumber: the base-b digit loop, then either the IPv6
continuations (at most four digits before ':', or fewer than four digits
before another hex character), a plain Number token, or the dotted-quad
IPv4 tail with an optional '/'-prefixed CIDR (width 32). The nextToken
dispatcher calls this with base 10 for a leading digit 1..9 and base 8
for a leading '0'. Lexer::consume(ch) advances past the current character
even when it does not match, which the mismatch branches mirror with an
extra drop. The external util::IPAddress::set parsing of the dotted quad
is not modelled; its result is ignored at this call site in the source. -/
def parseNumber (base : Int) (input : List Char) : NumLex :=
  let r0 := numLoop base input 0
  let n := r0.1
  let sv := r0.2.1
  let rest := r0.2.2
  if sv.length ≤ 4 ∧ headIs rest ':' then
    NumLex.continueIPv6 true sv rest
  else if sv.length < 4 ∧ headIsHex rest then
    NumLex.continueIPv6 false sv rest
  else if ¬ headIs rest '.' then
    NumLex.tok Token.Number n sv [] rest
  else
    let sv2 := sv ++ ['.']
    let r2 := digitSpan (rest.drop 1)
    if ¬ headIs r2.2 '.' then
      NumLex.tok Token.Unknown n (sv2 ++ r2.1) [] (r2.2.drop 1)
    else
      let sv3 := sv2 ++ r2.1 ++ ['.']
      let r3 := digitSpan (r2.2.drop 1)
      if ¬ headIs r3.2 '.' then
        NumLex.tok Token.Unknown n (sv3 ++ r3.1) [] (r3.2.drop 1)
      else
        let sv4 := sv3 ++ r3.1 ++ ['.']
        let r4 := digitSpan (r3.2.drop 1)
        let sv5 := sv4 ++ r4.1
        if ¬ headIs r4.2 '/' then
          NumLex.tok Token.IP n sv5 [] r4.2
        else
          continueCidr 32 n sv5 r4.2

/-- The mathematical value of a decimal digit string, as accumulated by
the base-10 digit loops of the lexer. -/
def digitsVal (ds : List Char) : Int :=
  ds.foldl (fun n c => n * 10 + digitVal c) 0

/-- The run of isxdigit characters at the front of the stream: the
while-isHexChar loop of Lexer::ipv6HexDigit4, which appends each consumed
character to stringValue. Returns the consumed run and the remainder. -/
def hexSpan : List Char → (List Char × List Char)
  | [] => ([], [])
  | c :: cs =>
      if isHexChar c then
        let r := hexSpan cs
        (c :: r.1, r.2)
      else ([], c :: cs)

/-- Lexer::ipv6HexDigit4: consume a hex-digit run into stringValue and
require that, together with the pre-consumed digits recorded in
ipv6HexDigits_ (passed as pre), between one and four digits were seen.
Returns (ok, stringValue, rest); the counter resets to zero afterwards
in the source, so all subsequent calls pass zero. -/
def ipv6HexDigit4 (pre : Nat) (sv : List Char) (input : List Char) :
    (Bool × List Char × List Char) :=
  let r := hexSpan input
  let i := pre + r.1.length
  (decide (1 ≤ i ∧ i ≤ 4), sv ++ r.1, r.2)

/-- The while-loop of Lexer::ipv6HexSeq: while the current character is
':' and the peeked one is not, consume the ':' and require another
1..4-hex-digit group. -/
def ipv6SeqLoop (sv : List Char) (input : List Char) :
    (Bool × List Char × List Char) :=
  match input with
  | ':' :: rest =>
      if headIs rest ':' then (true, sv, ':' :: rest)
      else
        let d := ipv6HexDigit4 0 (sv ++ [':']) rest
        if d.1 then ipv6SeqLoop d.2.1 d.2.2
        else (false, d.2.1, d.2.2)
  | other => (true, sv, other)
termination_by input.length
decreasing_by
  simp only [ipv6HexDigit4]
  have hl : ∀ l : List Char, (hexSpan l).2.length ≤ l.length := by
    intro l
    induction l with
    | nil => simp [hexSpan]
    | cons c cs ih =>
        simp only [hexSpan]
        by_cases h : isHexChar c = true
        · simp [h]; omega
        · simp [h]
  have := hl rest
  simp only [List.length_cons]
  omega

/-- Lexer::ipv6HexSeq: a 1..4-hex-digit group (honouring the pre-consumed
count) followed by further ':'-separated groups. -/
def ipv6HexSeq (pre : Nat) (sv : List Char) (input : List Char) :
    (Bool × List Char × List Char) :=
  let d := ipv6HexDigit4 pre sv input
  if d.1 then ipv6SeqLoop d.2.1 d.2.2 else (false, d.2.1, d.2.2)

/-- std::isalnum, used by the trailing validity check of
Lexer::ipv6HexPart. -/
def isAlnumChar (c : Char) : Bool := c.isAlphanum

/-- Lexer::ipv6HexPart: either a leading "::" (which replaces
stringValue) optionally followed by a hex sequence, or a hex sequence
optionally followed by "::" and another hex sequence; finally the parse
fails if an alphanumeric character or another ':' remains. On entry
continueParseIPv6 has set ipv6HexDigits_ to the current stringValue
length, which the first hex group honours. -/
def ipv6HexPart (sv : List Char) (input : List Char) :
    (Bool × List Char × List Char) :=
  let r :=
    if headIs input ':' ∧ headIs (input.drop 1) ':' then
      let rest := input.drop 2
      if headIsHex rest then ipv6HexSeq sv.length (':' :: [':']) rest
      else (true, ':' :: [':'], rest)
    else
      let r1 := ipv6HexSeq sv.length sv input
      if r1.1 then
        if headIs r1.2.2 ':' ∧ headIs (r1.2.2.drop 1) ':' then
          let rest := r1.2.2.drop 2
          if headIsHex rest then ipv6HexSeq 0 (r1.2.1 ++ [':', ':']) rest
          else (true, r1.2.1 ++ [':', ':'], rest)
        else r1
      else r1
  match r.2.2 with
  | [] => r
  | c :: _ =>
      if isAlnumChar c ∨ c = ':' then (false, r.2.1, r.2.2) else r

/-- The embedded-IPv4 remainder loop of Lexer::continueParseIPv6: while
the current character is '.' and the peeked one a digit, consume the dot
and the following digit run into stringValue. -/
def v4TailLoop (sv : List Char) (input : List Char) :
    (List Char × List Char) :=
  match input with
  | '.' :: rest =>
      if headIsDigit rest then
        let d := digitSpan rest
        v4TailLoop (sv ++ ['.'] ++ d.1) d.2
      else (sv, '.' :: rest)
  | other => (sv, other)
termination_by input.length
decreasing_by
  have hl : ∀ l : List Char, (digitSpan l).2.length ≤ l.length := by
    intro l
    induction l with
    | nil => simp [digitSpan]
    | cons c cs ih =>
        simp only [digitSpan]
        by_cases h : isDigitChar c = true
        · simp [h]; omega
        · simp [h]
  have := hl rest
  simp only [List.length_cons]
  omega

/-- Intermediate outcome of the firstComplete branch of
Lexer::continueParseIPv6: either the early Unknown return from a failed
hex group inside the while loop, or fall-through with the validity flag
rv. -/
inductive V6Phase where
  | earlyUnknown (sv : List Char) (rest : List Char)
  | cont (rv : Bool) (sv : List Char) (rest : List Char)
deriving DecidableEq, Repr

/-- The while-loop and the "::" continuation of the firstComplete branch
of Lexer::continueParseIPv6. -/
def ipv6FirstLoop (sv : List Char) (input : List Char) : V6Phase :=
  match input with
  | ':' :: rest =>
      if headIs rest ':' then
        let rest2 := rest.drop 1
        if headIsHex rest2 then
          let r := ipv6HexSeq 0 (sv ++ [':', ':']) rest2
          V6Phase.cont r.1 r.2.1 r.2.2
        else V6Phase.cont true (sv ++ [':', ':']) rest2
      else
        let d := ipv6HexDigit4 0 (sv ++ [':']) rest
        if d.1 then ipv6FirstLoop d.2.1 d.2.2
        else V6Phase.earlyUnknown d.2.1 d.2.2
  | other => V6Phase.cont true sv other
termination_by input.length
decreasing_by
  simp only [ipv6HexDigit4]
  have hl : ∀ l : List Char, (hexSpan l).2.length ≤ l.length := by
    intro l
    induction l with
    | nil => simp [hexSpan]
    | cons c cs ih =>
        simp only [hexSpan]
        by_cases h : isHexChar c = true
        · simp [h]; omega
        · simp [h]
  have := hl rest
  simp only [List.length_cons]
  omega

/-- Lexer::continueParseIPv6, parametrised by the external
util::IPAddress::set IPv6 text parser (ipSetV6), which belongs to the
utility layer the specification treats as an external collaborator.
Continues an IPv6 literal whose first hex group was consumed by the
caller (firstComplete) or not, then the embedded-IPv4 remainder, the
validity checks, and either an IP token or, when a '/' follows, the
CIDR continuation with address width 128. numberValue (n) is untouched
on this path. -/
def continueParseIPv6 (ipSetV6 : List Char → Bool) (firstComplete : Bool)
    (n : Int) (sv : List Char) (input : List Char) : NumLex :=
  let ph :=
    if firstComplete then ipv6FirstLoop sv input
    else
      let r := ipv6HexPart sv input
      V6Phase.cont r.1 r.2.1 r.2.2
  match ph with
  | V6Phase.earlyUnknown sv' rest => NumLex.tok Token.Unknown n sv' [] rest
  | V6Phase.cont rv sv' rest =>
      let t := v4TailLoop sv' rest
      if ¬ rv then NumLex.tok Token.Unknown n t.1 [] t.2
      else if ¬ ipSetV6 t.1 then NumLex.tok Token.Unknown n t.1 [] t.2
      else if ¬ headIs t.2 '/' then NumLex.tok Token.IP n t.1 [] t.2
      else continueCidr 128 n t.1 t.2

/- ------------------------------------------------------------------
Lexer: single-quoted (raw) strings (Lexer.cc: parseRawString,
parseString, unescape)
------------------------------------------------------------------ -/

/-- The scanning loop of Lexer::parseString: consume characters into
stringValue while the current character is not the delimiter or the
previous one was a backslash; then, if the delimiter is reached, consume
it and succeed, otherwise (EOF) fail. Returns the collected body and,
on success, the remainder after the closing delimiter. The last
character starts out as the out-of-band -1, modelled as none. -/
def scanQuoted (delim : Char) : List Char → Option Char →
    (List Char × Option (List Char))
  | [], _ => ([], none)
  | c :: cs, last =>
      if c = delim ∧ last ≠ some '\\' then ([], some cs)
      else
        let r := scanQuoted delim cs (some c)
        (c :: r.1, r.2)

/-- One escaped character as substituted by the switch inside unescape:
a doubled backslash yields a backslash, r, n, t yield the control
characters, and any other character is kept as itself. -/
def escByte (c : Char) : Char :=
  if c = '\\' then '\\'
  else if c = 'r' then '\r'
  else if c = 'n' then '\n'
  else if c = 't' then '\t'
  else c

/-- The file-static unescape helper of Lexer.cc: copy characters,
substituting each backslash-escape via escByte; a trailing lone
backslash is dropped. -/
def unescape : List Char → List Char
  | [] => []
  | c :: cs =>
      if c ≠ '\\' then c :: unescape cs
      else
        match cs with
        | [] => []
        | d :: ds => escByte d :: unescape ds

/-- Outcome of Lexer::parseString / Lexer::parseRawString: a String token
with the final stringValue and the unconsumed remainder, or an Unknown
token (unterminated literal) with the partial stringValue. -/
inductive StrLex where
  | strTok (value : List Char) (rest : List Char)
  | unknownTok (value : List Char)
deriving DecidableEq, Repr

/-- Lexer::parseString for a String result: the current character is the
delimiter; skip it and scan the body. -/
def parseStringTok (input : List Char) : StrLex :=
  match input with
  | [] => StrLex.unknownTok []
  | delim :: rest =>
      match scanQuoted delim rest none with
      | (b, some r) => StrLex.strTok b r
      | (b, none) => StrLex.unknownTok b

/-- Lexer::parseRawString (the single-quote branch of nextToken):
parseString, and when it produced a String token, replace stringValue
with its unescaped form. -/
def parseRawString (input : List Char) : StrLex :=
  match parseStringTok input with
  | StrLex.strTok b r => StrLex.strTok (unescape b) r
  | o => o

/- ------------------------------------------------------------------
Parser: native-call overload resolution (Parser::resolve,
src/flow/lang/Parser.cc 1594-1643)
------------------------------------------------------------------ -/

/-- A candidate callable of one call-site, as Parser::resolve observes
it: resolve only branches on the outcomes of CallableSym::isDirectMatch
and CallableSym::tryMatch for the given parameter list (with the failure
message tryMatch fills in), plus the experimental flag of the native
callback. Those member functions live in AST.cc / NativeCallback.cc,
which are not part of this source excerpt; per the specification,
isDirectMatch is the exact in-order argument-type match and tryMatch the
tolerant match allowing default values and named-argument reordering. -/
structure OverloadCand where
  id : Nat
  direct : Bool
  tolerant : Bool
  failMsg : String
  experimental : Bool
deriving DecidableEq, Repr

/-- Outcome of Parser::resolve: either a chosen candidate (a CallExpr on
it) or the null expression, in both cases together with the diagnostics
reported while resolving. -/
inductive ResolveOut where
  | chosen (c : OverloadCand) (diags : List DiagMessage)
  | nullExpr (diags : List DiagMessage)
deriving DecidableEq, Repr

/-- The "No matching signature" type error (the formatted signature is
elided from the text). -/
def noMatchMsg : DiagMessage :=
  { type := DiagnosticsType.TypeError, text := "No matching signature" }

/-- The ambiguity type error of Parser::resolve. -/
def ambiguousMsg : DiagMessage :=
  { type := DiagnosticsType.TypeError, text := "Call to builtin is ambiguous." }

/-- The experimental-builtin warning of Parser::resolve (the formatted
signature is elided from the text). -/
def experimentalMsg : DiagMessage :=
  { type := DiagnosticsType.Warning, text := "Using experimental builtin API" }

/-- Parser::resolve: first scan the candidates for a direct (exact)
match and build the call on the first hit; otherwise split the
candidates by tryMatch, reporting "No matching signature" followed by
each failed candidate's message when none matched tolerantly, the
ambiguity error when more than one did, and otherwise choosing the
single tolerant match (warning when it is experimental). -/
def resolveOverloads (cands : List OverloadCand) : ResolveOut :=
  match cands.find? (fun c => c.direct) with
  | some c => ResolveOut.chosen c []
  | none =>
      let result := cands.filter (fun c => c.tolerant)
      let matchErrors :=
        (cands.filter (fun c => ¬ c.tolerant)).map
          (fun c => { type := DiagnosticsType.TypeError,
                      text := c.failMsg : DiagMessage })
      match result with
      | [] => ResolveOut.nullExpr (noMatchMsg :: matchErrors)
      | [c] =>
          ResolveOut.chosen c (if c.experimental then [experimentalMsg] else [])
      | _ => ResolveOut.nullExpr [ambiguousMsg]

/- ------------------------------------------------------------------
Pass manager (PassManager::run(IRHandler*),
src/flow/ir/PassManager.cc 27-43)
------------------------------------------------------------------ -/

/-- A registered handler pass: its unique name and its transformation,
which returns the transformed handler state together with whether it
modified anything (the HandlerPass contract of PassManager.h). The
handler is an abstract state type, transformed functionally. -/
structure HandlerPass (σ : Type) where
  name : String
  run : σ → σ × Bool

/-- Observable events of one PassManager::run(IRHandler*) execution:
a pass was executed (with whether it reported changes), or
IRHandler::verify was invoked. -/
inductive PMEvent where
  | ranPass (name : String) (changed : Bool)
  | verified
deriving DecidableEq, Repr

/-- The inner for-loop of PassManager::run(IRHandler*): execute each
registered pass in registration order on the evolving handler state;
after each pass that reports a change, invoke verify and count the
change. Returns the state after the round, the change count, and the
event trace of the round. -/
def runRound {σ : Type} (passes : List (HandlerPass σ)) (s : σ) :
    σ × Nat × List PMEvent :=
  match passes with
  | [] => (s, 0, [])
  | p :: ps =>
      let r := p.run s
      let evs0 : List PMEvent :=
        if r.2 then [PMEvent.ranPass p.name true, PMEvent.verified]
        else [PMEvent.ranPass p.name false]
      let rec' := runRound ps r.1
      (rec'.1, (if r.2 then rec'.2.1 + 1 else rec'.2.1), evs0 ++ rec'.2.2)

/-- PassManager::run(IRHandler*): repeat rounds of all registered passes
until a whole round reports zero changes. The source loop has no bound;
the model takes fuel and returns none when the fuel is exhausted before
a quiescent round, so every some result corresponds to an actual
terminating run. -/
def runPM {σ : Type} (fuel : Nat) (passes : List (HandlerPass σ)) (s : σ) :
    Option (σ × List PMEvent) :=
  match fuel with
  | 0 => none
  | fuel + 1 =>
      let r := runRound passes s
      if r.2.1 = 0 then some (r.1, r.2.2)
      else
        match runPM fuel passes r.1 with
        | some t => some (t.1, r.2.2 ++ t.2)
        | none => none

/-- The handler state after one full round of passes. -/
def roundState {σ : Type} (passes : List (HandlerPass σ)) (s : σ) : σ :=
  (runRound passes s).1

/-- The change count of one full round of passes. -/
def roundChanges {σ : Type} (passes : List (HandlerPass σ)) (s : σ) : Nat :=
  (runRound passes s).2.1

/-- The event trace of one full round of passes. -/
def roundTrace {σ : Type} (passes : List (HandlerPass σ)) (s : σ) :
    List PMEvent :=
  (runRound passes s).2.2

/-- The round-structured traces: for each pass, in order, one ranPass
event, followed by one verified event exactly when the pass reported a
change. -/
inductive RoundShaped : List String → List PMEvent → Prop where
  | nil : RoundShaped [] []
  | changed (n : String) (ns : List String) (t : List PMEvent) :
      RoundShaped ns t →
      RoundShaped (n :: ns) (PMEvent.ranPass n true :: PMEvent.verified :: t)
  | unchanged (n : String) (ns : List String) (t : List PMEvent) :
      RoundShaped ns t →
      RoundShaped (n :: ns) (PMEvent.ranPass n false :: t)

/- ------------------------------------------------------------------
IR generation: inline expansion of source-handler calls
(IRGenerator::codegenInline and the source-handler branch of
IRGenerator::accept(CallExpr&), src/flow/lang/IRGenerator.cc)
------------------------------------------------------------------ -/

/-- A statement of a handler body as the inline expander observes it:
either a statement that emits code but calls no source handler
(abstracted to an opaque tag; compound statements are flattened into the
sequence), or a call whose callee resolved to a source handler, which
IRGenerator::accept(CallExpr&) forwards to codegenInline. -/
inductive HStmt where
  | prim (tag : Nat)
  | callHandler (callee : String)
deriving DecidableEq, Repr

/-- A parsed unit, reduced to what codegenInline reads: for each handler
name the body of its HandlerSym, where none models a forward-declared
handler whose body pointer is still null. -/
structure SourceUnit where
  bodyOf : String → Option (List HStmt)

/-- Observable output of the inline expander: an emitted code unit for a
primitive statement, the "Cannot recursively call handler" type error, or
the missing-implementation type error for a forward-declared handler. -/
inductive GenOut where
  | emit (tag : Nat)
  | recursionTypeErr (handlerName : String)
  | missingBodyTypeErr (handlerName : String)
deriving DecidableEq, Repr

mutual

/-- IRGenerator::codegenInline: if the handler is already on the
handler stack, report the "Cannot recursively call handler" type error
and return without expanding; otherwise push the handler, report the
missing-implementation type error when its body is null, emit the body,
and pop (popping is the return). Local-variable declarations emitted
before the body carry no handler calls and are elided. The source
recursion is bounded by the stack check; the model takes fuel, and the
theorems quantify over any sufficient fuel. -/
def codegenInline (u : SourceUnit) : Nat → List String → String →
    List GenOut
  | 0, _, _ => []
  | fuel + 1, stack, h =>
      if h ∈ stack then [GenOut.recursionTypeErr h]
      else
        match u.bodyOf h with
        | none => [GenOut.missingBodyTypeErr h]
        | some body => genBody u fuel (stack ++ [h]) body
termination_by fuel _ _ => (fuel, 0)

/-- Code generation for a handler body: primitive statements emit their
code unit; source-handler calls are expanded by codegenInline on the
current handler stack. -/
def genBody (u : SourceUnit) : Nat → List String → List HStmt →
    List GenOut
  | _, _, [] => []
  | fuel, stack, HStmt.prim t :: rest =>
      GenOut.emit t :: genBody u fuel stack rest
  | fuel, stack, HStmt.callHandler c :: rest =>
      codegenInline u fuel stack c ++ genBody u fuel stack rest
termination_by fuel _ body => (fuel, body.length + 1)

end

/- ------------------------------------------------------------------
IR use-def links (Value::addUse / Value::removeUse back-edges and the
operand mutators of src/flow/ir/Instr.cc)
------------------------------------------------------------------ -/

/-- The use-def side of the IR object graph: for every instruction (by
id) its ordered operand list, where an entry none is a null Value
pointer, and for every value (by id; instructions are values, so the id
spaces coincide) the list of uses recorded on it. Modelled from the
spec: Value.h/Value.cc are not part of this source excerpt; the
specification states that each Value maintains the collection of
instructions that use it, maintained by the addUse/removeUse calls seen
in Instr.cc. Because one instruction may hold the same value in several
operand slots and each such slot performs its own addUse/removeUse, the
collection is a multiset: addUse appends one entry and removeUse erases
one matching entry. -/
structure UseDefState where
  operands : Nat → List (Option Nat)
  uses : Nat → List Nat

/-- Value::addUse: record the instruction as one more user of the
value. -/
def addUse (s : UseDefState) (v i : Nat) : UseDefState :=
  { s with uses := Function.update s.uses v (s.uses v ++ [i]) }

/-- Value::removeUse: erase one recorded use of the value by the
instruction. -/
def removeUse (s : UseDefState) (v i : Nat) : UseDefState :=
  { s with uses := Function.update s.uses v ((s.uses v).erase i) }

/-- The Instr constructor (Instr::Instr(LiteralType, ops, name) and the
copy constructor): install the operand list, then addUse the new
instruction on every non-null operand. -/
def instrInit (s : UseDefState) (i : Nat) (ops : List (Option Nat)) :
    UseDefState :=
  let s1 : UseDefState :=
    { s with operands := Function.update s.operands i ops }
  ops.foldl
    (fun st op =>
      match op with
      | some v => addUse st v i
      | none => st) s1

/-- Instr::addOperand: push the value onto the operand list and addUse
the instruction on it (the successor bookkeeping for BasicBlock operands
concerns the block graph, not the use-def link, and is elided). -/
def addOperand (s : UseDefState) (i v : Nat) : UseDefState :=
  let s1 : UseDefState :=
    { s with operands :=
        Function.update s.operands i (s.operands i ++ [some v]) }
  addUse s1 v i

/-- Instr::setOperand: overwrite operand slot k, removeUse on the old
non-null value and addUse on the new non-null value (successor
bookkeeping elided as above). The source indexes the slot unchecked; the
theorems assume k is in range, as every caller guarantees. -/
def setOperand (s : UseDefState) (i k : Nat) (v : Option Nat) :
    UseDefState :=
  let old := (s.operands i).getD k none
  let s1 : UseDefState :=
    { s with operands := Function.update s.operands i ((s.operands i).set k v) }
  let s2 :=
    match old with
    | some o => removeUse s1 o i
    | none => s1
  match v with
  | some w => addUse s2 w i
  | none => s2

/-- Instr::replaceOperand: walk the operand slots (the slot count is
read once up front and setOperand preserves it) and setOperand every
slot currently holding the old value to the replacement. -/
def replaceOperand (s : UseDefState) (i : Nat) (old new' : Option Nat) :
    UseDefState :=
  (List.range (s.operands i).length).foldl
    (fun st k =>
      if (st.operands i).getD k none = old then setOperand st i k new'
      else st) s

/-- Instr::clearOperands: setOperand every slot to null, then clear the
operand list. -/
def clearOperands (s : UseDefState) (i : Nat) : UseDefState :=
  let s1 :=
    (List.range (s.operands i).length).foldl
      (fun st k => setOperand st i k none) s
  { s1 with operands := Function.update s1.operands i [] }

/-- Instr::~Instr: removeUse the dying instruction from every non-null
operand (the successor unlinking for BasicBlock operands is elided as
above); the destroyed instruction's operand list itself disappears with
the object, modelled by clearing its row. -/
def instrDestruct (s : UseDefState) (i : Nat) : UseDefState :=
  let s1 :=
    (s.operands i).foldl
      (fun st op =>
        match op with
        | some v => removeUse st v i
        | none => st) s
  { s1 with operands := Function.update s1.operands i [] }

/-- The counting form of the use-def invariant: every value occurs as an
operand of an instruction exactly as often as the instruction is
recorded among the value's users. This is the inductive strengthening
that the mutators preserve. -/
def UseDefCounted (s : UseDefState) : Prop :=
  ∀ i v, (s.operands i).count (some v) = (s.uses v).count i

/-- The use-def invariant as the specification states it: an instruction
uses a value iff the instruction is recorded among the value's users. -/
def UseDefLinked (s : UseDefState) : Prop :=
  ∀ i v, some v ∈ s.operands i ↔ i ∈ s.uses v

/- ------------------------------------------------------------------
Operator selection (Parser.cc makeOperator) and IR generation of binary
expressions (IRGenerator::accept(BinaryExpr&), IRGenerator.cc 206-298)
------------------------------------------------------------------ -/

/-- The literal types (flow/LiteralType.h is not in this excerpt; the
constructors are those named by the specification's closed set and used
throughout the excerpted sources: ConstantValue.h, Instr.cc,
Parser.cc). -/
inductive LiteralType where
  | Void | Boolean | Number | String | IPAddress | Cidr | RegExp
  | IntArray | StringArray | IPAddrArray | CidrArray
deriving DecidableEq, Repr

/-- The opcodes referenced by the embedded functions (the full enum
lives in flow/vm/Instruction.h, outside this excerpt; constructor names
follow the source spelling). -/
inductive Opcode where
  | EXIT | NOP
  | NCMPEQ | NCMPNE | NCMPLE | NCMPGE | NCMPLT | NCMPGT | NCMPZ
  | BAND | BOR | BXOR | BNOT
  | NADD | NSUB | NMUL | NDIV | NREM | NPOW | NSHL | NSHR
  | NAND | NOR | NXOR | NNOT | NNEG
  | SADD | SCMPEQ | SCMPNE | SCMPLE | SCMPGE | SCMPLT | SCMPGT
  | SCMPBEG | SCMPEND | SCONTAINS | SREGMATCH | SISEMPTY | SLEN
  | PCMPEQ | PCMPNE | PINCIDR
  | N2S | S2N | P2S | C2S | R2S
deriving DecidableEq, Repr

/-- The operand-signature classes of Parser.cc (enum class OpSig). -/
inductive OpSig where
  | Invalid | BoolBool | NumNum | StringString | StringRegexp
  | IpIp | IpCidr | CidrCidr
deriving DecidableEq, Repr

/-- The operand-signature classification at the head of
makeOperator(Token, Expr*, Expr*): the if-else chain over the two
operand types. -/
def opSigOf (l r : LiteralType) : OpSig :=
  if l = LiteralType.Boolean ∧ r = LiteralType.Boolean then OpSig.BoolBool
  else if l = LiteralType.Number ∧ r = LiteralType.Number then OpSig.NumNum
  else if l = LiteralType.String ∧ r = LiteralType.String then
    OpSig.StringString
  else if l = LiteralType.String ∧ r = LiteralType.RegExp then
    OpSig.StringRegexp
  else if l = LiteralType.IPAddress ∧ r = LiteralType.IPAddress then
    OpSig.IpIp
  else if l = LiteralType.IPAddress ∧ r = LiteralType.Cidr then OpSig.IpCidr
  else if l = LiteralType.Cidr ∧ r = LiteralType.Cidr then OpSig.CidrCidr
  else OpSig.Invalid

/-- The nested operator table of makeOperator(Token, Expr*, Expr*):
operand signature to operator token to opcode; none models a missing
entry. -/
def binOpLookup (sig : OpSig) (t : Token) : Option Opcode :=
  match sig, t with
  | OpSig.BoolBool, Token.Equal => some Opcode.NCMPEQ
  | OpSig.BoolBool, Token.UnEqual => some Opcode.NCMPNE
  | OpSig.BoolBool, Token.And => some Opcode.BAND
  | OpSig.BoolBool, Token.Or => some Opcode.BOR
  | OpSig.BoolBool, Token.Xor => some Opcode.BXOR
  | OpSig.NumNum, Token.Plus => some Opcode.NADD
  | OpSig.NumNum, Token.Minus => some Opcode.NSUB
  | OpSig.NumNum, Token.Mul => some Opcode.NMUL
  | OpSig.NumNum, Token.Div => some Opcode.NDIV
  | OpSig.NumNum, Token.Mod => some Opcode.NREM
  | OpSig.NumNum, Token.Pow => some Opcode.NPOW
  | OpSig.NumNum, Token.Shl => some Opcode.NSHL
  | OpSig.NumNum, Token.Shr => some Opcode.NSHR
  | OpSig.NumNum, Token.BitAnd => some Opcode.NAND
  | OpSig.NumNum, Token.BitOr => some Opcode.NOR
  | OpSig.NumNum, Token.BitXor => some Opcode.NXOR
  | OpSig.NumNum, Token.Equal => some Opcode.NCMPEQ
  | OpSig.NumNum, Token.UnEqual => some Opcode.NCMPNE
  | OpSig.NumNum, Token.LessOrEqual => some Opcode.NCMPLE
  | OpSig.NumNum, Token.GreaterOrEqual => some Opcode.NCMPGE
  | OpSig.NumNum, Token.Less => some Opcode.NCMPLT
  | OpSig.NumNum, Token.Greater => some Opcode.NCMPGT
  | OpSig.StringString, Token.Plus => some Opcode.SADD
  | OpSig.StringString, Token.Equal => some Opcode.SCMPEQ
  | OpSig.StringString, Token.UnEqual => some Opcode.SCMPNE
  | OpSig.StringString, Token.LessOrEqual => some Opcode.SCMPLE
  | OpSig.StringString, Token.GreaterOrEqual => some Opcode.SCMPGE
  | OpSig.StringString, Token.Less => some Opcode.SCMPLT
  | OpSig.StringString, Token.Greater => some Opcode.SCMPGT
  | OpSig.StringString, Token.PrefixMatch => some Opcode.SCMPBEG
  | OpSig.StringString, Token.SuffixMatch => some Opcode.SCMPEND
  | OpSig.StringString, Token.In => some Opcode.SCONTAINS
  | OpSig.StringRegexp, Token.RegexMatch => some Opcode.SREGMATCH
  | OpSig.IpIp, Token.Equal => some Opcode.PCMPEQ
  | OpSig.IpIp, Token.UnEqual => some Opcode.PCMPNE
  | OpSig.IpCidr, Token.In => some Opcode.PINCIDR
  | OpSig.CidrCidr, Token.Equal => some Opcode.NOP
  | OpSig.CidrCidr, Token.UnEqual => some Opcode.NOP
  | OpSig.CidrCidr, Token.In => some Opcode.NOP
  | _, _ => none

/-- makeOperator(Token, Expr*, Expr*): classify the operand types and
look the token up in the table; any miss yields EXIT. -/
def makeOperator (t : Token) (l r : LiteralType) : Opcode :=
  (binOpLookup (opSigOf l r) t).getD Opcode.EXIT

/-- Membership in the binary-operation dispatch map at the head of
IRGenerator::accept(BinaryExpr&): the opcodes for which the generator
emits a single binary IR instruction via the mapped createX builder. -/
def irBinaryOp (op : Opcode) : Bool :=
  match op with
  | Opcode.BAND | Opcode.BXOR
  | Opcode.NADD | Opcode.NSUB | Opcode.NMUL | Opcode.NDIV | Opcode.NREM
  | Opcode.NSHL | Opcode.NSHR | Opcode.NPOW
  | Opcode.NAND | Opcode.NOR | Opcode.NXOR
  | Opcode.NCMPEQ | Opcode.NCMPNE | Opcode.NCMPLE | Opcode.NCMPGE
  | Opcode.NCMPLT | Opcode.NCMPGT
  | Opcode.SADD | Opcode.SCMPEQ | Opcode.SCMPNE | Opcode.SCMPLE
  | Opcode.SCMPGE | Opcode.SCMPLT | Opcode.SCMPGT | Opcode.SCMPBEG
  | Opcode.SCMPEND | Opcode.SCONTAINS
  | Opcode.SREGMATCH
  | Opcode.PCMPEQ | Opcode.PCMPNE | Opcode.PINCIDR => true
  | _ => false

/-- The expressions the binary-expression generator walks: literal
leaves (codegen issues a value and emits nothing, like the constant
loads of IRGenerator) and binary expressions tagged with the opcode the
parser selected via makeOperator. -/
inductive MExpr where
  | leaf
  | bin (op : Opcode) (l r : MExpr)
deriving DecidableEq, Repr

/-- The IR instructions the binary-expression generator emits. Blocks
and values are identified by numeric ids; value id 0 is the null
result. -/
inductive MInstr where
  | alloca (res : Nat)
  | binInstr (op : Opcode) (lhs rhs res : Nat)
  | store (target src : Nat)
  | condbr (cond : Nat) (onTrue onFalse : Nat)
  | br (target : Nat)
deriving DecidableEq, Repr

/-- The IRBuilder state the generator threads: the handler's blocks in
creation order with their instruction lists, the current insertion
point, the fresh block and value counters, and the count of
not-implemented binary operations hit (the BUG/assert branch of
accept(BinaryExpr&)). -/
structure CGState where
  blocks : List (Nat × List MInstr)
  cur : Nat
  nextBlock : Nat
  nextVal : Nat
  bugs : Nat
deriving DecidableEq, Repr

/-- IRBuilder::createBlock: append a fresh empty block. -/
def createBlock (g : CGState) : Nat × CGState :=
  (g.nextBlock,
   { g with blocks := g.blocks ++ [(g.nextBlock, [])],
            nextBlock := g.nextBlock + 1 })

/-- IRBuilder::insert at the current insertion point: append the
instruction to the current block. -/
def emitInstr (g : CGState) (ins : MInstr) : CGState :=
  { g with blocks :=
      g.blocks.map (fun p => if p.1 = g.cur then (p.1, p.2 ++ [ins]) else p) }

/-- IRBuilder::setInsertPoint. -/
def setInsertPoint (g : CGState) (b : Nat) : CGState :=
  { g with cur := b }

/-- The instruction list of a block. -/
def blockInstrs (g : CGState) (b : Nat) : Option (List MInstr) :=
  (g.blocks.find? (fun p => p.1 = b)).map (fun p => p.2)

/-- IRGenerator::accept(BinaryExpr&) together with the leaf case of
expression codegen. For the BOR opcode: create the bor.left, bor.right
and bor.cont blocks, alloca the shared boolean result, generate the left
operand, emit the conditional branch on it with bor.left as the true
target and bor.right as the false target, store the left value and jump
to bor.cont on the true side, generate the right operand with the
insertion point on bor.right (the false side) and store its value and
jump to bor.cont there, then continue at bor.cont with the alloca as
result. For every other opcode: generate both operands and either emit
the mapped binary instruction or (BUG branch) count the assertion
failure and yield the null result. -/
def codegen : CGState → MExpr → CGState × Nat
  | g, MExpr.leaf => ({ g with nextVal := g.nextVal + 1 }, g.nextVal)
  | g, MExpr.bin op l r =>
      if op = Opcode.BOR then
        let bL := createBlock g
        let bR := createBlock bL.2
        let bC := createBlock bR.2
        let res := bC.2.nextVal
        let g3 : CGState := { bC.2 with nextVal := bC.2.nextVal + 1 }
        let g4 := emitInstr g3 (MInstr.alloca res)
        let lhs := codegen g4 l
        let g5 := emitInstr lhs.1 (MInstr.condbr lhs.2 bL.1 bR.1)
        let g6 := setInsertPoint g5 bL.1
        let g7 := emitInstr g6 (MInstr.store res lhs.2)
        let g8 := emitInstr g7 (MInstr.br bC.1)
        let g9 := setInsertPoint g8 bR.1
        let rhs := codegen g9 r
        let g10 := emitInstr rhs.1 (MInstr.store res rhs.2)
        let g11 := emitInstr g10 (MInstr.br bC.1)
        (setInsertPoint g11 bC.1, res)
      else
        let lhs := codegen g l
        let rhs := codegen lhs.1 r
        if irBinaryOp op then
          let res := rhs.1.nextVal
          let g2 : CGState := { rhs.1 with nextVal := rhs.1.nextVal + 1 }
          (emitInstr g2 (MInstr.binInstr op lhs.2 rhs.2 res), res)
        else
          ({ rhs.1 with bugs := rhs.1.bugs + 1 }, 0)

/-- Auxiliary predicate for the code-generation theorems: the
instruction is not a binary instruction carrying the BOR opcode. -/
def notBorInstr (i : MInstr) : Bool :=
  match i with
  | MInstr.binInstr op _ _ _ => decide (op ≠ Opcode.BOR)
  | _ => true

/-- Auxiliary predicate for the code-generation theorems: no block of
the state contains a binary BOR instruction. -/
def noBorState (g : CGState) : Bool :=
  g.blocks.all (fun p => p.2.all notBorInstr)

/-- Relation used to reason about the code generator: state after
extends state before when the fresh-block counter only grew, all block
ids stay below it, the insertion point is either unchanged or a block
created since, blocks other than the original insertion point and the
newly created ones are untouched, every block only grows at its end,
and the insertion point keeps denoting an existing block. -/
def CGExtends (g g' : CGState) : Prop :=
  (∀ p ∈ g'.blocks, p.1 < g'.nextBlock) ∧
  g'.cur < g'.nextBlock ∧
  g.nextBlock ≤ g'.nextBlock ∧
  (g'.cur = g.cur ∨ g.nextBlock ≤ g'.cur) ∧
  (∀ b, b < g.nextBlock → b ≠ g.cur →
    blockInstrs g' b = blockInstrs g b) ∧
  (∀ b ins0, blockInstrs g b = some ins0 →
    ∃ tail, blockInstrs g' b = some (ins0 ++ tail)) ∧
  ((blockInstrs g g.cur).isSome → (blockInstrs g' g'.cur).isSome) ∧
  (∀ b, g.nextBlock ≤ b → b < g'.nextBlock → (blockInstrs g' b).isSome) ∧
  (noBorState g = true → noBorState g' = true)

/-- The control-flow diamond that IRGenerator::accept(BinaryExpr&)
emits for a BOR expression, stated about the generation result. With
the three blocks created at entry (bor.left = A, bor.right = B,
bor.cont = C), the result alloca, the left-operand generation lhs, the
state g9 in which the right operand starts, and the final state Z: the
three blocks carry the next free ids, Z is the state after storing the
right value and branching to bor.cont from the right path, the result
value is the alloca id, generation continues in bor.cont which is still
empty, the bor.left block holds exactly the store of the left value and
the jump to bor.cont, the right operand starts with the insertion point
on bor.right, the block in which the left operand finished ends with
the conditional branch on the left value (true target bor.left, false
target bor.right), the block in which the right operand finished ends
with the store of the right value and the jump to bor.cont, and the
shared alloca sits in the original insertion block. -/
def borDiamond (l r : MExpr) (g : CGState) : Prop :=
  let A := createBlock g
  let B := createBlock A.2
  let C := createBlock B.2
  let res := C.2.nextVal
  let g4 := emitInstr { C.2 with nextVal := C.2.nextVal + 1 }
    (MInstr.alloca res)
  let lhs := codegen g4 l
  let g9 := setInsertPoint
    (emitInstr
      (emitInstr (setInsertPoint
          (emitInstr lhs.1 (MInstr.condbr lhs.2 A.1 B.1)) A.1)
        (MInstr.store res lhs.2))
      (MInstr.br C.1)) B.1
  let rhs := codegen g9 r
  let Z := (codegen g (MExpr.bin Opcode.BOR l r)).1
  A.1 = g.nextBlock ∧ B.1 = g.nextBlock + 1 ∧ C.1 = g.nextBlock + 2 ∧
  Z = setInsertPoint
    (emitInstr (emitInstr rhs.1 (MInstr.store res rhs.2)) (MInstr.br C.1))
    C.1 ∧
  (codegen g (MExpr.bin Opcode.BOR l r)).2 = res ∧
  Z.cur = C.1 ∧
  blockInstrs Z C.1 = some [] ∧
  blockInstrs Z A.1 = some [MInstr.store res lhs.2, MInstr.br C.1] ∧
  g9.cur = B.1 ∧
  (∃ pre, blockInstrs Z lhs.1.cur =
    some (pre ++ [MInstr.condbr lhs.2 A.1 B.1])) ∧
  (∃ pre, blockInstrs Z rhs.1.cur =
    some (pre ++ [MInstr.store res rhs.2, MInstr.br C.1])) ∧
  (∃ pre post, blockInstrs Z g.cur =
    some (pre ++ MInstr.alloca res :: post))

/- ==================================================================
Theorems
================================================================== -/

theorem consoleErrorCount_foldl (msgs : List DiagMessage) (acc : Nat) :
    msgs.foldl consolePush acc =
      acc + msgs.countP (fun m => m.type ≠ DiagnosticsType.Warning) := by
  induction msgs generalizing acc with
  | nil => simp
  | cons m ms ih =>
      simp only [List.foldl_cons, List.countP_cons, consolePush, ih]
      by_cases h : m.type = DiagnosticsType.Warning
      · simp [h]
      · simp only [h, ne_eq, not_false_eq_true, if_true, decide_not,
                   decide_eq_true_eq]
        omega

theorem isFailureType_eq_not_warning (t : DiagnosticsType) :
    isFailureType t = decide (t ≠ DiagnosticsType.Warning) := by
  cases t <;> rfl

/-- C9: a diagnostics report holding only Warning messages registers no
failures in either sink; the console sink's error counter counts exactly
the TokenError, SyntaxError, TypeError and LinkError messages (as does
the buffered sink's emptiness test), so warnings alone never produce a
non-empty failure count. -/
theorem C9_warnings_not_failures :
    (∀ msgs : List DiagMessage,
        (∀ m ∈ msgs, m.type = DiagnosticsType.Warning) →
        consoleContainsFailures msgs = false ∧
        bufferedContainsFailures msgs = false) ∧
    (∀ msgs : List DiagMessage,
        consoleErrorCount msgs =
          msgs.countP (fun m => isFailureType m.type) ∧
        (bufferedContainsFailures msgs = true ↔
          msgs.countP (fun m => isFailureType m.type) ≠ 0)) ∧
    (∀ t, isFailureType t = decide (t ≠ DiagnosticsType.Warning)) := by
  have hfun : (fun m : DiagMessage => isFailureType m.type) =
      (fun m : DiagMessage => decide (m.type ≠ DiagnosticsType.Warning)) :=
    funext fun m => isFailureType_eq_not_warning m.type
  refine ⟨?_, ?_, isFailureType_eq_not_warning⟩
  · intro msgs hall
    have hzero :
        msgs.countP (fun m => m.type ≠ DiagnosticsType.Warning) = 0 := by
      rw [List.countP_eq_zero]
      intro m hm
      simp [hall m hm]
    refine ⟨?_, ?_⟩
    · simp only [consoleContainsFailures, consoleErrorCount,
                 consoleErrorCount_foldl, Nat.zero_add, hzero]
      simp
    · simp only [bufferedContainsFailures, hzero]
      simp
  · intro msgs
    refine ⟨?_, ?_⟩
    · rw [consoleErrorCount, consoleErrorCount_foldl, hfun]
      omega
    · rw [bufferedContainsFailures, hfun]
      simp

/-- Witness for C9 at a concrete warning-only report. -/
theorem C9_warnings_not_failures_witness :
    consoleContainsFailures
        [{ type := DiagnosticsType.Warning, text := "w" }] = false ∧
    bufferedContainsFailures
        [{ type := DiagnosticsType.Warning, text := "w" }] = false :=
  C9_warnings_not_failures.1
    [{ type := DiagnosticsType.Warning, text := "w" }]
    (by intro m hm; simp at hm; simp [hm])

theorem poolGet_mem {α : Type} [DecidableEq α] (table : List α) (lit : α)
    (h : lit ∈ table) :
    (poolGet table lit).1 = table ∧
    (poolGet table lit).1[(poolGet table lit).2]? = some lit := by
  have hex : ∃ x, x ∈ table ∧ (fun c => decide (c = lit)) x := by
    exact ⟨lit, h, by simp⟩
  have hfind := List.findIdx?_eq_some_of_exists hex
  rw [poolGet, hfind]
  refine ⟨rfl, ?_⟩
  rcases List.findIdx?_eq_some_iff_getElem.mp hfind with ⟨hlt, hp, _⟩
  simp only [decide_eq_true_eq] at hp
  simp [List.getElem?_eq_getElem hlt, hp]

theorem poolGet_not_mem {α : Type} [DecidableEq α] (table : List α) (lit : α)
    (h : lit ∉ table) :
    poolGet table lit = (table ++ [lit], table.length) := by
  have hfind : table.findIdx? (fun c => decide (c = lit)) = none := by
    rw [List.findIdx?_eq_none_iff]
    intro x hx
    simp only [decide_eq_false_iff_not]
    intro hxl
    exact h (hxl ▸ hx)
  rw [poolGet, hfind]

theorem poolGet_nodup {α : Type} [DecidableEq α] (table : List α) (lit : α)
    (h : table.Nodup) : ((poolGet table lit).1).Nodup := by
  by_cases hm : lit ∈ table
  · rw [(poolGet_mem table lit hm).1]
    exact h
  · rw [poolGet_not_mem table lit hm]
    simp [List.nodup_append, h, hm]

theorem poolRun_nodup_aux {α : Type} [DecidableEq α] (reqs : List α)
    (table : List α) (h : table.Nodup) :
    (reqs.foldl (fun t l => (poolGet t l).1) table).Nodup := by
  induction reqs generalizing table with
  | nil => exact h
  | cons r rs ih =>
      exact ih ((poolGet table r).1) (poolGet_nodup table r h)

/-- C2: an IRProgram::get request returns the already-stored constant
(the table is unchanged and the returned index denotes an entry equal to
the request) whenever a structurally equal constant is in the table, and
appends a fresh constant exactly otherwise; consequently a table that
held no duplicates holds none after a request, and after any sequence of
requests starting from the empty pool no table contains two structurally
equal constants. -/
theorem C2_constant_pool_dedup {α : Type} [DecidableEq α] :
    (∀ (table : List α) (lit : α), lit ∈ table →
        (poolGet table lit).1 = table ∧
        (poolGet table lit).1[(poolGet table lit).2]? = some lit) ∧
    (∀ (table : List α) (lit : α), lit ∉ table →
        poolGet table lit = (table ++ [lit], table.length)) ∧
    (∀ (table : List α) (lit : α), table.Nodup →
        ((poolGet table lit).1).Nodup) ∧
    (∀ reqs : List α, (poolRun reqs).Nodup) :=
  ⟨poolGet_mem, poolGet_not_mem, poolGet_nodup,
   fun reqs => poolRun_nodup_aux reqs [] List.nodup_nil⟩

/-- Witness for C2 at concrete requests over the numbers table. -/
theorem C2_constant_pool_dedup_witness :
    (poolGet [(2 : Int), 7] 7).1 = [(2 : Int), 7] ∧
    poolGet [(2 : Int), 7] 5 = ([(2 : Int), 7, 5], 2) ∧
    (poolRun [(1 : Int), 2, 1, 2, 1]).Nodup :=
  ⟨(C2_constant_pool_dedup.1 [(2 : Int), 7] 7 (by decide)).1,
   C2_constant_pool_dedup.2.1 [(2 : Int), 7] 5 (by decide),
   C2_constant_pool_dedup.2.2.2 [(1 : Int), 2, 1, 2, 1]⟩

/-- C10: a single-quoted literal whose scan terminates produces a String
token whose value is the scanned body with backslash escapes substituted
by unescape; unescape turns a doubled backslash into one backslash,
backslash-r/n/t into the control characters, keeps any other escaped
character without its backslash, and copies unescaped characters; and
the substitution is not the identity, so single-quoted strings are not
taken verbatim. -/
theorem C10_raw_string_unescaped :
    (∀ (input b : List Char) (r : List Char),
        parseStringTok input = StrLex.strTok b r →
        parseRawString input = StrLex.strTok (unescape b) r) ∧
    (∀ t : List Char, unescape ('\\' :: '\\' :: t) = '\\' :: unescape t) ∧
    (∀ t : List Char, unescape ('\\' :: 'r' :: t) = '\r' :: unescape t) ∧
    (∀ t : List Char, unescape ('\\' :: 'n' :: t) = '\n' :: unescape t) ∧
    (∀ t : List Char, unescape ('\\' :: 't' :: t) = '\t' :: unescape t) ∧
    (∀ (c : Char) (t : List Char), c ≠ '\\' → c ≠ 'r' → c ≠ 'n' → c ≠ 't' →
        unescape ('\\' :: c :: t) = c :: unescape t) ∧
    (∀ (c : Char) (t : List Char), c ≠ '\\' →
        unescape (c :: t) = c :: unescape t) ∧
    (parseRawString ('\'' :: 'a' :: '\\' :: 'n' :: '\'' :: []) =
        StrLex.strTok ['a', '\n'] [] ∧
      ('a' :: '\\' :: 'n' :: [] : List Char) ≠ ['a', '\n']) := by
  refine ⟨?_, ?_, ?_, ?_, ?_, ?_, ?_, by decide, by decide⟩
  · intro input b r h
    rw [parseRawString, h]
  · intro t; rfl
  · intro t; rfl
  · intro t; rfl
  · intro t; rfl
  · intro c t h1 h2 h3 h4
    rw [unescape.eq_def]
    simp [escByte, h1, h2, h3, h4]
  · intro c t h1
    rw [unescape.eq_def]
    simp [h1]

/-- Witness for C10 at a concrete literal containing every escape kind. -/
theorem C10_raw_string_unescaped_witness :
    parseRawString ("'x\\\\y\\n\\q'".toList) =
      StrLex.strTok ('x' :: '\\' :: 'y' :: '\n' :: 'q' :: []) [] :=
  C10_raw_string_unescaped.1 ("'x\\\\y\\n\\q'".toList)
    ('x' :: '\\' :: '\\' :: 'y' :: '\\' :: 'n' :: '\\' :: 'q' :: []) []
    (by decide)

theorem numLoop_all_digits (ds : List Char) (rest : List Char) (acc : Int)
    (hd : ∀ c ∈ ds, isDigitChar c = true)
    (hr : headIsDigit rest = false) :
    numLoop 10 (ds ++ rest) acc =
      (ds.foldl (fun n c => n * 10 + digitVal c) acc, ds, rest) := by
  induction ds generalizing acc with
  | nil =>
      simp only [List.nil_append, List.foldl_nil]
      cases rest with
      | nil => rfl
      | cons c cs =>
          have hnc : ¬ ('0'.toNat ≤ c.toNat ∧ digitVal c < 10) := by
            simp only [headIsDigit, isDigitChar, decide_eq_false_iff_not] at hr
            simp only [digitVal, show '0'.toNat = 48 from rfl,
                       show '9'.toNat = 57 from rfl] at hr ⊢
            omega
          rw [numLoop, if_neg hnc]
  | cons c cs ih =>
      have hc := hd c (by simp)
      have hcond : '0'.toNat ≤ c.toNat ∧ digitVal c < 10 := by
        simp only [isDigitChar, decide_eq_true_eq] at hc
        simp only [digitVal, show '0'.toNat = 48 from rfl,
                   show '9'.toNat = 57 from rfl] at hc ⊢
        omega
      rw [List.cons_append, numLoop, if_pos hcond]
      rw [ih (acc * 10 + digitVal c) (fun x hx => hd x (by simp [hx]))]
      simp

theorem parseNumber_digits (ds : List Char) (h1 : ds ≠ [])
    (h2 : ∀ c ∈ ds, isDigitChar c = true) :
    parseNumber 10 ds = NumLex.tok Token.Number (digitsVal ds) ds [] [] := by
  have hloop : numLoop 10 ds 0 = (digitsVal ds, ds, []) := by
    have := numLoop_all_digits ds [] 0 h2 rfl
    simpa [digitsVal] using this
  rw [parseNumber]
  simp [hloop, headIs, headIsHex]

/-- C3 counterexample: the 20-digit decimal literal 9223372036854775808
(that is 2 to the 63rd, whose value needs 64 bits) still lexes to a
Number token and Lexer::parseNumber reports no token error at all,
refuting the claim that decimal literals needing more than 63 bits are
reported as token errors. -/
theorem C3_counterexample :
    (parseNumber 10 ("9223372036854775808".toList)).tokenOf = Token.Number ∧
    (parseNumber 10 ("9223372036854775808".toList)).errsOf = [] := by
  constructor <;> rfl

/-- C3 amended: the literal 9223372036854775807 lexes to a Number token
holding exactly that value, and every EOF-delimited decimal digit string,
of any magnitude, lexes to a Number token with no token error: the digit
loop of Lexer::parseNumber has no 63-bit overflow check (the model
accumulates over unbounded integers; int64_t overflow in the source is
undefined behaviour and in particular raises no diagnostic). -/
theorem C3_number_lexing_amended :
    (parseNumber 10 ("9223372036854775807".toList) =
       NumLex.tok Token.Number 9223372036854775807
         ("9223372036854775807".toList) [] []) ∧
    (∀ ds : List Char, ds ≠ [] → (∀ c ∈ ds, isDigitChar c = true) →
       parseNumber 10 ds =
         NumLex.tok Token.Number (digitsVal ds) ds [] []) := by
  exact ⟨by rfl, parseNumber_digits⟩

/-- Witness for the amended C3 at the one-digit literal 7. -/
theorem C3_number_lexing_amended_witness :
    parseNumber 10 ['7'] = NumLex.tok Token.Number 7 ['7'] [] [] := by
  have h := C3_number_lexing_amended.2 ['7'] (by decide) (by decide)
  simpa using h

/-- C7: in Lexer::continueCidr (reached from an IP literal followed by a
slash) a prefix number exactly equal to the address width produces a
Cidr token with no diagnostic, while a prefix number strictly greater
than the width reports the "CIDR prefix out of range." token error and
produces Unknown; the IPv4 call site passes width 32 and the IPv6 call
site width 128, as the closed conjuncts exercise through
Lexer::parseNumber and Lexer::continueParseIPv6 (the latter with the
external IPv6 text validator accepting). -/
theorem C7_cidr_prefix_range (w : Nat) (n0 : Int) (sv ds rest : List Char)
    (h1 : ds ≠ []) (h2 : ∀ c ∈ ds, isDigitChar c = true)
    (h3 : headIsDigit rest = false) :
    ((digitsVal ds = w →
        continueCidr w n0 sv ('/' :: (ds ++ rest)) =
          NumLex.tok Token.Cidr w (sv ++ ds) [] rest) ∧
     (digitsVal ds > w →
        continueCidr w n0 sv ('/' :: (ds ++ rest)) =
          NumLex.tok Token.Unknown (digitsVal ds) (sv ++ ds)
            [cidrRangeMsg] rest)) ∧
    (parseNumber 10 ("10.0.0.5/32".toList) =
       NumLex.tok Token.Cidr 32 ("10.0.0.532".toList) [] [] ∧
     parseNumber 10 ("10.0.0.5/33".toList) =
       NumLex.tok Token.Unknown 33 ("10.0.0.533".toList) [cidrRangeMsg] []) ∧
    (continueParseIPv6 (fun _ => true) false 0 []
        [':', ':', '1', '/', '1', '2', '8'] =
       NumLex.tok Token.Cidr 128 [':', ':', '1', '1', '2', '8'] [] [] ∧
     continueParseIPv6 (fun _ => true) false 0 []
        [':', ':', '1', '/', '1', '2', '9'] =
       NumLex.tok Token.Unknown 129 [':', ':', '1', '1', '2', '9']
         [cidrRangeMsg] []) := by
  refine ⟨?_, ⟨by rfl, by rfl⟩, ⟨?_, ?_⟩⟩
  case refine_2 =>
    simp [continueParseIPv6, ipv6HexPart, ipv6HexSeq, ipv6HexDigit4, hexSpan,
          ipv6SeqLoop, v4TailLoop, continueCidr, numLoop, headIs, headIsHex,
          headIsDigit, isHexChar, isDigitChar, isAlnumChar, digitVal,
          cidrRangeMsg]
  case refine_3 =>
    simp [continueParseIPv6, ipv6HexPart, ipv6HexSeq, ipv6HexDigit4, hexSpan,
          ipv6SeqLoop, v4TailLoop, continueCidr, numLoop, headIs, headIsHex,
          headIsDigit, isHexChar, isDigitChar, isAlnumChar, digitVal,
          cidrRangeMsg]
  have hdig : headIsDigit (ds ++ rest) = true := by
    cases ds with
    | nil => exact absurd rfl h1
    | cons c cs =>
        simp only [List.cons_append, headIsDigit]
        exact h2 c (by simp)
  have hloop : numLoop 10 (ds ++ rest) 0 = (digitsVal ds, ds, rest) := by
    have := numLoop_all_digits ds rest 0 h2 h3
    simpa [digitsVal] using this
  constructor
  · intro heq
    rw [continueCidr]
    simp only [List.drop_succ_cons, List.drop_zero, hdig, Bool.not_true,
               Bool.false_eq_true, if_false, hloop]
    simp [heq]
  · intro hgt
    rw [continueCidr]
    simp only [List.drop_succ_cons, List.drop_zero, hdig, Bool.not_true,
               Bool.false_eq_true, if_false, hloop]
    simp [hgt]

/-- Witness for C7 at concrete widths 32 and 128. -/
theorem C7_cidr_prefix_range_witness :
    continueCidr 32 0 [] ('/' :: (['3', '2'] ++ [])) =
      NumLex.tok Token.Cidr 32 ['3', '2'] [] [] ∧
    continueCidr 128 0 [] ('/' :: (['1', '2', '9'] ++ [])) =
      NumLex.tok Token.Unknown 129 ['1', '2', '9'] [cidrRangeMsg] [] :=
  ⟨(C7_cidr_prefix_range 32 0 [] ['3', '2'] [] (by decide) (by decide)
      (by rfl)).1.1 (by decide),
   (C7_cidr_prefix_range 128 0 [] ['1', '2', '9'] [] (by decide) (by decide)
      (by rfl)).1.2 (by decide)⟩

/-- C4: Parser::resolve first chooses the first candidate whose
isDirectMatch holds, with no diagnostics; when no candidate matches
directly it filters the candidates through tryMatch: zero survivors
yield the "No matching signature" type error (followed by the failed
candidates' messages) and the null expression, exactly one survivor is
chosen (with the experimental warning when flagged), and two or more
survivors yield the ambiguity type error and the null expression. -/
theorem C4_overload_resolution (cands : List OverloadCand) :
    ((∃ c ∈ cands, c.direct) →
        ∃ c, cands.find? (fun x => x.direct) = some c ∧ c.direct = true ∧
          c ∈ cands ∧ resolveOverloads cands = ResolveOut.chosen c []) ∧
    ((∀ c ∈ cands, c.direct = false) →
        (cands.filter (fun c => c.tolerant) = [] →
            resolveOverloads cands =
              ResolveOut.nullExpr
                (noMatchMsg ::
                  (cands.filter (fun c => ¬ c.tolerant)).map
                    (fun c => { type := DiagnosticsType.TypeError,
                                text := c.failMsg }))) ∧
        (∀ c, cands.filter (fun c => c.tolerant) = [c] →
            resolveOverloads cands =
              ResolveOut.chosen c
                (if c.experimental then [experimentalMsg] else [])) ∧
        (2 ≤ (cands.filter (fun c => c.tolerant)).length →
            resolveOverloads cands = ResolveOut.nullExpr [ambiguousMsg])) := by
  constructor
  · intro hex
    have hsome : (cands.find? (fun x => x.direct)).isSome := by
      rw [List.find?_isSome]
      rcases hex with ⟨c, hc, hd⟩
      exact ⟨c, hc, hd⟩
    rcases Option.isSome_iff_exists.mp hsome with ⟨c, hfind⟩
    refine ⟨c, hfind, List.find?_some hfind, List.mem_of_find?_eq_some hfind,
            ?_⟩
    rw [resolveOverloads, hfind]
  · intro hnone
    have hfind : cands.find? (fun x => x.direct) = none := by
      rw [List.find?_eq_none]
      intro c hc
      simp [hnone c hc]
    refine ⟨?_, ?_, ?_⟩
    · intro hfilter
      rw [resolveOverloads, hfind]
      simp only [hfilter]
    · intro c hfilter
      rw [resolveOverloads, hfind]
      simp only [hfilter]
    · intro hlen
      rw [resolveOverloads, hfind]
      rcases hfl : cands.filter (fun c => c.tolerant) with _ | ⟨a, _ | ⟨b, r⟩⟩
      · rw [hfl] at hlen; simp at hlen
      · rw [hfl] at hlen; simp at hlen
      · simp only [hfl]

/-- Witness for C4 at a concrete candidate list with no direct match and
two tolerant matches (ambiguity). -/
theorem C4_overload_resolution_witness :
    resolveOverloads
        [{ id := 0, direct := false, tolerant := true, failMsg := "",
           experimental := false },
         { id := 1, direct := false, tolerant := true, failMsg := "",
           experimental := false }] =
      ResolveOut.nullExpr [ambiguousMsg] :=
  (C4_overload_resolution
      [{ id := 0, direct := false, tolerant := true, failMsg := "",
         experimental := false },
       { id := 1, direct := false, tolerant := true, failMsg := "",
         experimental := false }]).2
    (by intro c hc; fin_cases hc <;> rfl)
    |>.2.2 (by rfl)

/-- C8: IRGenerator::codegenInline reports the "Cannot recursively call
handler" type error and expands nothing when the callee is already on
the handler stack; otherwise it inline-expands the callee's body with
the callee pushed onto the stack (so any call back into a handler on
the stack is rejected), as the closed conjunct shows for a directly
self-recursive handler. -/
theorem C8_recursive_handler_call (u : SourceUnit) (fuel : Nat)
    (stack : List String) (h : String) :
    (h ∈ stack →
        codegenInline u (fuel + 1) stack h = [GenOut.recursionTypeErr h] ∧
        ∀ t, GenOut.emit t ∉ codegenInline u (fuel + 1) stack h) ∧
    (h ∉ stack → ∀ body, u.bodyOf h = some body →
        codegenInline u (fuel + 1) stack h =
          genBody u fuel (stack ++ [h]) body) ∧
    (codegenInline
        ⟨fun n => if n = "r" then
            some [HStmt.prim 1, HStmt.callHandler "r", HStmt.prim 2]
          else none⟩
        2 [] "r" =
      [GenOut.emit 1, GenOut.recursionTypeErr "r", GenOut.emit 2]) := by
  have hrec : ∀ (v : SourceUnit) (f : Nat) (st : List String) (g : String),
      g ∈ st → codegenInline v (f + 1) st g = [GenOut.recursionTypeErr g] := by
    intro v f st g hin
    rw [codegenInline]
    simp [hin]
  have hexp : ∀ (v : SourceUnit) (f : Nat) (st : List String) (g : String)
      (body : List HStmt), g ∉ st → v.bodyOf g = some body →
      codegenInline v (f + 1) st g = genBody v f (st ++ [g]) body := by
    intro v f st g body hnin hbody
    rw [codegenInline]
    simp [hnin, hbody]
  refine ⟨?_, ?_, ?_⟩
  · intro hin
    refine ⟨hrec u fuel stack h hin, ?_⟩
    intro t
    rw [hrec u fuel stack h hin]
    simp
  · intro hnin body hbody
    exact hexp u fuel stack h body hnin hbody
  · rw [show (2 : Nat) = 1 + 1 from rfl,
        hexp _ 1 [] "r" _ (by simp) (by rfl)]
    rw [genBody, genBody]
    rw [show (1 : Nat) = 0 + 1 from rfl]
    rw [hrec _ 0 ([] ++ ["r"]) "r" (by simp)]
    rw [genBody, genBody]
    rfl

/-- Witness for C8 at a concrete two-handler unit: handler a calls
handler b, which is expanded with a on the stack. -/
theorem C8_recursive_handler_call_witness :
    codegenInline
        ⟨fun n => if n = "a" then some [HStmt.callHandler "b"]
          else if n = "b" then some [HStmt.prim 9] else none⟩
        2 [] "a" =
      genBody
        ⟨fun n => if n = "a" then some [HStmt.callHandler "b"]
          else if n = "b" then some [HStmt.prim 9] else none⟩
        1 ["a"] [HStmt.callHandler "b"] :=
  ((C8_recursive_handler_call
      ⟨fun n => if n = "a" then some [HStmt.callHandler "b"]
        else if n = "b" then some [HStmt.prim 9] else none⟩
      1 [] "a").2.1 (by simp) [HStmt.callHandler "b"] (by rfl))

theorem runRound_trace_shape {σ : Type} (passes : List (HandlerPass σ))
    (s : σ) :
    RoundShaped (passes.map (fun p => p.name)) (roundTrace passes s) := by
  induction passes generalizing s with
  | nil => exact RoundShaped.nil
  | cons p ps ih =>
      simp only [roundTrace, runRound, List.map_cons]
      by_cases hc : (p.run s).2 = true
      · simp only [hc, if_true, List.cons_append, List.nil_append]
        exact RoundShaped.changed _ _ _ (ih (p.run s).1)
      · simp only [hc, if_false, List.cons_append, List.nil_append,
                   Bool.false_eq_true]
        exact RoundShaped.unchanged _ _ _ (ih (p.run s).1)

theorem runRound_verified_count {σ : Type} (passes : List (HandlerPass σ))
    (s : σ) :
    (roundTrace passes s).count PMEvent.verified = roundChanges passes s := by
  induction passes generalizing s with
  | nil => rfl
  | cons p ps ih =>
      have ih' : ((runRound ps (p.run s).1).2.2).count PMEvent.verified =
          (runRound ps (p.run s).1).2.1 := ih (p.run s).1
      simp only [roundTrace, roundChanges, runRound]
      by_cases hc : (p.run s).2 = true
      · simp [hc, List.count_cons, ih']
      · simp [hc, List.count_cons, ih']

theorem range_succ_join_shift {β : Type} (g : Nat → List β) (n : Nat) :
    ((List.range (n + 1)).map g).join =
      g 0 ++ ((List.range n).map (fun j => g (j + 1))).join := by
  rw [List.range_succ_eq_map]
  simp only [List.map_cons, List.join, List.map_map]
  rfl

theorem runPM_characterization {σ : Type} (passes : List (HandlerPass σ)) :
    ∀ (fuel : Nat) (s t : σ) (evs : List PMEvent),
      runPM fuel passes s = some (t, evs) ↔
        ∃ k, k < fuel ∧
          (∀ j, j < k →
            roundChanges passes ((roundState passes)^[j] s) ≠ 0) ∧
          roundChanges passes ((roundState passes)^[k] s) = 0 ∧
          t = (roundState passes)^[k + 1] s ∧
          evs = ((List.range (k + 1)).map
            (fun j => roundTrace passes ((roundState passes)^[j] s))).join := by
  intro fuel
  induction fuel with
  | zero =>
      intro s t evs
      simp [runPM]
  | succ fuel ih =>
      intro s t evs
      simp only [runPM]
      by_cases h0 : (runRound passes s).2.1 = 0
      · rw [if_pos h0]
        constructor
        · intro heq
          have heq' := Option.some_inj.mp heq
          have ht' : (runRound passes s).1 = t := congrArg Prod.fst heq'
          have hevs' : (runRound passes s).2.2 = evs := congrArg Prod.snd heq'
          refine ⟨0, Nat.succ_pos fuel,
                  fun j hj => absurd hj (Nat.not_lt_zero j), h0, ?_, ?_⟩
          · exact ht'.symm
          · rw [← hevs']
            exact (List.append_nil _).symm
        · rintro ⟨k, _, hbefore, hquiet, ht, hevs⟩
          cases k with
          | zero =>
              subst ht
              subst hevs
              rw [Option.some_inj, Prod.mk.injEq]
              exact ⟨rfl, (List.append_nil _).symm⟩
          | succ k =>
              exact absurd h0 (hbefore 0 (Nat.succ_pos k))
      · rw [if_neg h0]
        constructor
        · intro heq
          rcases hm : runPM fuel passes (roundState passes s) with _ | ⟨t2, evs2⟩
          · rw [show (runRound passes s).1 = roundState passes s from rfl,
                hm] at heq
            exact absurd heq (by simp)
          · rw [show (runRound passes s).1 = roundState passes s from rfl,
                hm] at heq
            have ht2 : t2 = t :=
              congrArg Prod.fst (Option.some_inj.mp heq)
            have hevs2 : (runRound passes s).2.2 ++ evs2 = evs :=
              congrArg Prod.snd (Option.some_inj.mp heq)
            rcases (ih (roundState passes s) t2 evs2).mp hm with
              ⟨k, hk, hbefore, hquiet, ht, hevs⟩
            refine ⟨k + 1, by omega, ?_, ?_, ?_, ?_⟩
            · intro j hj
              cases j with
              | zero => exact h0
              | succ j =>
                  rw [Function.iterate_succ_apply]
                  exact hbefore j (by omega)
            · rw [Function.iterate_succ_apply]
              exact hquiet
            · rw [Function.iterate_succ_apply, ← ht2]
              exact ht
            · rw [range_succ_join_shift, ← hevs2, hevs]
              simp only [Function.iterate_zero_apply]
              have hmap : (List.range (k + 1)).map (fun j =>
                    roundTrace passes
                      ((roundState passes)^[j] (roundState passes s))) =
                  (List.range (k + 1)).map (fun j =>
                    roundTrace passes ((roundState passes)^[j + 1] s)) := by
                apply List.map_congr_left
                intro j _
                rw [Function.iterate_succ_apply]
              rw [hmap]
              rfl
        · rintro ⟨k, hk, hbefore, hquiet, ht, hevs⟩
          cases k with
          | zero => exact absurd hquiet h0
          | succ k =>
              have hmid : runPM fuel passes (roundState passes s) =
                  some ((roundState passes)^[k + 1] (roundState passes s),
                    ((List.range (k + 1)).map (fun j =>
                      roundTrace passes
                        ((roundState passes)^[j]
                          (roundState passes s)))).join) := by
                rw [ih]
                refine ⟨k, by omega, ?_, ?_, rfl, rfl⟩
                · intro j hj
                  rw [← Function.iterate_succ_apply]
                  exact hbefore (j + 1) (by omega)
                · rw [← Function.iterate_succ_apply]
                  exact hquiet
              rw [show (runRound passes s).1 = roundState passes s from rfl,
                  hmid]
              have hmap : (List.range (k + 1)).map (fun j =>
                    roundTrace passes
                      ((roundState passes)^[j] (roundState passes s))) =
                  (List.range (k + 1)).map (fun j =>
                    roundTrace passes ((roundState passes)^[j + 1] s)) := by
                apply List.map_congr_left
                intro j _
                rw [Function.iterate_succ_apply]
              have h1 : (roundState passes)^[k + 1] (roundState passes s) =
                  t := by
                rw [ht]
                rfl
              have h2 : (runRound passes s).2.2 ++
                  ((List.range (k + 1)).map (fun j =>
                    roundTrace passes
                      ((roundState passes)^[j] (roundState passes s)))).join =
                  evs := by
                rw [hevs]
                nth_rewrite 2 [range_succ_join_shift]
                rw [hmap]
                rfl
              rw [← h1, ← h2]

/-- C6: one round of PassManager::run(IRHandler*) executes every
registered pass in registration order and invokes IRHandler::verify
exactly after each pass that reported a mutation (the trace is
round-shaped and its verify count is the round's change count), and the
manager returns exactly when a whole round reports no change: the
fuelled loop yields a result precisely for the first k whose preceding
rounds all changed something and whose own round changed nothing, with
the final state and the concatenated round traces determined by that
k. -/
theorem C6_pass_manager {σ : Type} (passes : List (HandlerPass σ)) (s : σ) :
    RoundShaped (passes.map (fun p => p.name)) (roundTrace passes s) ∧
    (roundTrace passes s).count PMEvent.verified = roundChanges passes s ∧
    (∀ (fuel : Nat) (t : σ) (evs : List PMEvent),
      runPM fuel passes s = some (t, evs) ↔
        ∃ k, k < fuel ∧
          (∀ j, j < k →
            roundChanges passes ((roundState passes)^[j] s) ≠ 0) ∧
          roundChanges passes ((roundState passes)^[k] s) = 0 ∧
          t = (roundState passes)^[k + 1] s ∧
          evs = ((List.range (k + 1)).map
            (fun j => roundTrace passes ((roundState passes)^[j] s))).join) :=
  ⟨runRound_trace_shape passes s, runRound_verified_count passes s,
   fun fuel t evs => runPM_characterization passes fuel s t evs⟩

/-- Witness for C6 at a concrete one-pass manager whose pass reports no
change: the run stops after the first round. -/
theorem C6_pass_manager_witness :
    runPM 1 [⟨"p", fun n => (n, false)⟩] (0 : Nat) =
      some (0, [PMEvent.ranPass "p" false]) := by
  apply ((C6_pass_manager [⟨"p", fun n => (n, false)⟩] (0 : Nat)).2.2 1 0
    [PMEvent.ranPass "p" false]).mpr
  refine ⟨0, Nat.one_pos, by omega, by rfl, by rfl, by rfl⟩

theorem addUse_operands (s : UseDefState) (v i : Nat) :
    (addUse s v i).operands = s.operands := rfl

theorem removeUse_operands (s : UseDefState) (v i : Nat) :
    (removeUse s v i).operands = s.operands := rfl

theorem addUse_uses_count (s : UseDefState) (v i w j : Nat) :
    ((addUse s v i).uses w).count j =
      (s.uses w).count j + (if w = v ∧ j = i then 1 else 0) := by
  simp only [addUse, Function.update_apply]
  by_cases hw : w = v
  · subst hw
    simp only [if_pos rfl, List.count_append, true_and]
    by_cases hj : j = i
    · subst hj; simp [List.count_cons]
    · simp [List.count_cons, hj, Ne.symm hj]
  · simp [hw]

theorem removeUse_uses_count (s : UseDefState) (v i w j : Nat) :
    ((removeUse s v i).uses w).count j =
      (s.uses w).count j - (if w = v ∧ j = i then 1 else 0) := by
  simp only [removeUse, Function.update_apply]
  by_cases hw : w = v
  · subst hw
    simp only [if_pos rfl, true_and, eq_self_iff_true, if_true]
    rw [List.count_erase]
    by_cases hj : j = i
    · subst hj; simp
    · simp [hj, Ne.symm hj]
  · simp [hw]

theorem count_set_option (l : List (Option Nat)) (k : Nat)
    (hk : k < l.length) (v x : Option Nat) :
    (l.set k v).count x + (if l.getD k none = x then 1 else 0) =
      l.count x + (if v = x then 1 else 0) := by
  induction l generalizing k with
  | nil => simp at hk
  | cons a as ih =>
      cases k with
      | zero =>
          simp only [List.set_cons_zero, List.getD_cons_zero, List.count_cons]
          by_cases hax : a = x <;> by_cases hvx : v = x <;>
            simp [hax, hvx, beq_iff_eq] <;> omega
      | succ k =>
          have hk' : k < as.length := by simpa using hk
          have hih := ih k hk'
          simp only [List.set_cons_succ, List.getD_cons_succ, List.count_cons]
          simp only [List.getD_eq_getElem?_getD] at hih ⊢
          by_cases hax : a = x <;> simp [hax, beq_iff_eq] <;> omega

theorem setOperand_operands (s : UseDefState) (i k : Nat) (v : Option Nat) :
    (setOperand s i k v).operands =
      Function.update s.operands i ((s.operands i).set k v) := by
  simp only [setOperand]
  cases (s.operands i).getD k none <;> cases v <;>
    simp [addUse, removeUse]

theorem setOperand_uses_count (s : UseDefState) (i k : Nat) (v : Option Nat)
    (w j : Nat) :
    ((setOperand s i k v).uses w).count j =
      (s.uses w).count j -
        (if (s.operands i).getD k none = some w ∧ j = i then 1 else 0) +
        (if v = some w ∧ j = i then 1 else 0) := by
  simp only [setOperand]
  cases hold : (s.operands i).getD k none <;> cases hv : v
  · simp
  · rename_i val
    rw [addUse_uses_count]
    by_cases hw : w = val <;> by_cases hj : j = i <;>
      simp [hw, hj, eq_comm] <;> omega
  · rename_i o
    rw [removeUse_uses_count]
    by_cases hw : w = o <;> by_cases hj : j = i <;>
      simp [hw, hj, eq_comm] <;> omega
  · rename_i o val
    rw [addUse_uses_count, removeUse_uses_count]
    by_cases hw : w = o <;> by_cases hw2 : w = val <;>
      by_cases hj : j = i <;> simp [hw, hw2, hj, eq_comm] <;> omega

theorem getD_mem_of_lt (l : List (Option Nat)) (k : Nat) (hk : k < l.length)
    (w : Nat) (h : l.getD k none = some w) : some w ∈ l := by
  rw [List.getD_eq_getElem?_getD, List.getElem?_eq_getElem hk] at h
  simp only [Option.getD_some] at h
  exact h ▸ List.getElem_mem hk

theorem setOperand_counted (s : UseDefState) (i k : Nat) (v : Option Nat)
    (hs : UseDefCounted s) (hk : k < (s.operands i).length) :
    UseDefCounted (setOperand s i k v) := by
  intro i' w
  rw [setOperand_operands, setOperand_uses_count]
  by_cases hi : i' = i
  · subst hi
    rw [Function.update_same]
    have hset := count_set_option (s.operands i') k hk v (some w)
    have hinv := hs i' w
    have hmem : (s.operands i').getD k none = some w →
        1 ≤ (s.operands i').count (some w) :=
      fun h => List.count_pos_iff.mpr (getD_mem_of_lt _ k hk w h)
    by_cases hold : (s.operands i').getD k none = some w <;>
      by_cases hv : v = some w <;>
      simp only [hold, hv, and_true, and_false, if_true, if_false,
                 eq_self_iff_true, true_and] <;>
      simp_all <;> omega
  · rw [Function.update_noteq hi]
    have hinv := hs i' w
    simp [hi]
    exact hinv

theorem foldSetNone_counted (ks : List Nat) (s : UseDefState) (i : Nat)
    (L : Nat) (hs : UseDefCounted s) (hlen : (s.operands i).length = L)
    (hks : ∀ k ∈ ks, k < L) :
    UseDefCounted (ks.foldl (fun st k => setOperand st i k none) s) ∧
    ((ks.foldl (fun st k => setOperand st i k none) s).operands i).length =
      L := by
  induction ks generalizing s with
  | nil => exact ⟨hs, hlen⟩
  | cons k ks ih =>
      simp only [List.foldl_cons]
      apply ih
      · exact setOperand_counted s i k none hs (by rw [hlen]; exact hks k (by simp))
      · rw [setOperand_operands, Function.update_same, List.length_set]
        exact hlen
      · intro x hx
        exact hks x (by simp [hx])

theorem foldReplace_counted (ks : List Nat) (s : UseDefState) (i : Nat)
    (old new' : Option Nat) (L : Nat)
    (hs : UseDefCounted s) (hlen : (s.operands i).length = L)
    (hks : ∀ k ∈ ks, k < L) :
    UseDefCounted (ks.foldl (fun st k =>
      if (st.operands i).getD k none = old then setOperand st i k new'
      else st) s) := by
  induction ks generalizing s with
  | nil => exact hs
  | cons k ks ih =>
      simp only [List.foldl_cons]
      by_cases hc : (s.operands i).getD k none = old
      · rw [if_pos hc]
        apply ih
        · exact setOperand_counted s i k new' hs
            (by rw [hlen]; exact hks k (by simp))
        · rw [setOperand_operands, Function.update_same, List.length_set]
          exact hlen
        · intro x hx
          exact hks x (by simp [hx])
      · rw [if_neg hc]
        exact ih s hs hlen (fun x hx => hks x (by simp [hx]))

theorem foldSetNone_slots (b : Nat) :
    ∀ (s : UseDefState) (i a : Nat),
      a + b = (s.operands i).length →
      (∀ k, k < a → (s.operands i).getD k none = none) →
      ∀ k, k < a + b →
        (((List.range' a b).foldl (fun st k => setOperand st i k none)
            s).operands i).getD k none = none := by
  induction b with
  | zero =>
      intro s i a hab hpre k hk
      simpa using hpre k (by omega)
  | succ b ih =>
      intro s i a hab hpre k hk
      rw [List.range'_succ]
      simp only [List.foldl_cons]
      have hrow : (setOperand s i a none).operands i =
          (s.operands i).set a none := by
        rw [setOperand_operands, Function.update_same]
      have halen : a < (s.operands i).length := by omega
      have hres := ih (setOperand s i a none) i (a + 1)
        (by rw [hrow, List.length_set]; omega)
        (by
          intro x hx
          rw [hrow, List.getD_eq_getElem?_getD]
          by_cases hxa : x = a
          · subst hxa
            rw [List.getElem?_set_self halen]
            rfl
          · rw [List.getElem?_set_ne (fun hax => hxa hax.symm)]
            rw [← List.getD_eq_getElem?_getD]
            exact hpre x (by omega))
        k (by omega)
      exact hres

theorem count_zero_of_all_none (l : List (Option Nat))
    (h : ∀ k, k < l.length → l.getD k none = none) (v : Nat) :
    l.count (some v) = 0 := by
  rw [List.count_eq_zero]
  intro hmem
  rcases List.getElem_of_mem hmem with ⟨k, hk, hget⟩
  have hnone := h k hk
  rw [List.getD_eq_getElem?_getD, List.getElem?_eq_getElem hk, hget] at hnone
  simp at hnone

theorem foldAdd_operands (ops : List (Option Nat)) (s : UseDefState)
    (i : Nat) :
    (ops.foldl (fun st op => match op with
      | some v => addUse st v i
      | none => st) s).operands = s.operands := by
  induction ops generalizing s with
  | nil => rfl
  | cons op rest ih =>
      cases op <;> simp only [List.foldl_cons] <;> rw [ih] <;> rfl

theorem foldAdd_uses_count (ops : List (Option Nat)) (s : UseDefState)
    (i w j : Nat) :
    ((ops.foldl (fun st op => match op with
      | some v => addUse st v i
      | none => st) s).uses w).count j =
      (s.uses w).count j + (if j = i then ops.count (some w) else 0) := by
  induction ops generalizing s with
  | nil => simp
  | cons op rest ih =>
      cases op with
      | none =>
          simp only [List.foldl_cons]
          rw [ih, List.count_cons]
          simp
      | some v =>
          simp only [List.foldl_cons]
          rw [ih, addUse_uses_count, List.count_cons]
          simp only [beq_iff_eq, Option.some.injEq]
          split_ifs <;> omega

theorem foldRemove_operands (ops : List (Option Nat)) (s : UseDefState)
    (i : Nat) :
    (ops.foldl (fun st op => match op with
      | some v => removeUse st v i
      | none => st) s).operands = s.operands := by
  induction ops generalizing s with
  | nil => rfl
  | cons op rest ih =>
      cases op <;> simp only [List.foldl_cons] <;> rw [ih] <;> rfl

theorem foldRemove_uses_count (ops : List (Option Nat)) (s : UseDefState)
    (i w j : Nat) :
    ((ops.foldl (fun st op => match op with
      | some v => removeUse st v i
      | none => st) s).uses w).count j =
      (s.uses w).count j - (if j = i then ops.count (some w) else 0) := by
  induction ops generalizing s with
  | nil => simp
  | cons op rest ih =>
      cases op with
      | none =>
          simp only [List.foldl_cons]
          rw [ih, List.count_cons]
          simp
      | some v =>
          simp only [List.foldl_cons]
          rw [ih, removeUse_uses_count, List.count_cons]
          simp only [beq_iff_eq, Option.some.injEq]
          split_ifs <;> omega

theorem instrInit_counted (s : UseDefState) (i : Nat)
    (ops : List (Option Nat)) (hs : UseDefCounted s)
    (hfresh : s.operands i = []) : UseDefCounted (instrInit s i ops) := by
  intro i' w
  have hop : (instrInit s i ops).operands =
      Function.update s.operands i ops := by
    rw [instrInit, foldAdd_operands]
  have huse : ((instrInit s i ops).uses w).count i' =
      (s.uses w).count i' + (if i' = i then ops.count (some w) else 0) := by
    rw [instrInit, foldAdd_uses_count]
  rw [hop, huse]
  by_cases hi : i' = i
  · subst hi
    rw [Function.update_same]
    have h0 := hs i' w
    rw [hfresh] at h0
    simp at h0
    rw [← h0]
    simp
  · rw [Function.update_noteq hi]
    simp [hi]
    exact hs i' w

theorem addOperand_counted (s : UseDefState) (i v : Nat)
    (hs : UseDefCounted s) : UseDefCounted (addOperand s i v) := by
  intro i' w
  have hop : (addOperand s i v).operands =
      Function.update s.operands i (s.operands i ++ [some v]) := by
    rw [addOperand, addUse_operands]
  rw [hop, addOperand, addUse_uses_count]
  by_cases hi : i' = i
  · subst hi
    rw [Function.update_same, List.count_append, List.count_cons]
    simp only [beq_iff_eq, Option.some.injEq, List.count_nil, and_true,
               eq_self_iff_true]
    have hinv := hs i' w
    split_ifs <;> omega
  · rw [Function.update_noteq hi]
    simp [hi]
    exact hs i' w

theorem replaceOperand_counted (s : UseDefState) (i : Nat)
    (old new' : Option Nat) (hs : UseDefCounted s) :
    UseDefCounted (replaceOperand s i old new') := by
  rw [replaceOperand]
  exact foldReplace_counted (List.range (s.operands i).length) s i old new'
    (s.operands i).length hs rfl (fun k hk => List.mem_range.mp hk)

theorem clearOperands_counted (s : UseDefState) (i : Nat)
    (hs : UseDefCounted s) : UseDefCounted (clearOperands s i) := by
  intro i' w
  rw [clearOperands]
  dsimp only
  have hfold := foldSetNone_counted (List.range (s.operands i).length) s i
    (s.operands i).length hs rfl (fun k hk => List.mem_range.mp hk)
  rw [List.range_eq_range']
  by_cases hi : i' = i
  · subst hi
    rw [Function.update_same]
    simp only [List.count_nil]
    have hlink := hfold.1 i' w
    rw [List.range_eq_range'] at hlink
    rw [← hlink]
    have hlen1 : (((List.range' 0 (s.operands i').length).foldl
        (fun st k => setOperand st i' k none) s).operands i').length =
        (s.operands i').length := by
      have h2 := hfold.2
      rw [List.range_eq_range'] at h2
      exact h2
    have hslots := foldSetNone_slots (s.operands i').length s i' 0
      (by simp) (by intro k hk; omega)
    have hz : (((List.range' 0 (s.operands i').length).foldl
        (fun st k => setOperand st i' k none) s).operands i').count
        (some w) = 0 := by
      apply count_zero_of_all_none
      intro k hk
      rw [hlen1] at hk
      exact hslots k (by omega)
    exact hz.symm
  · rw [Function.update_noteq hi]
    have hlink := hfold.1 i' w
    rw [List.range_eq_range'] at hlink
    exact hlink

theorem instrDestruct_counted (s : UseDefState) (i : Nat)
    (hs : UseDefCounted s) : UseDefCounted (instrDestruct s i) := by
  intro i' w
  rw [instrDestruct]
  dsimp only
  have hop := foldRemove_operands (s.operands i) s i
  have huse := foldRemove_uses_count (s.operands i) s i w i'
  by_cases hi : i' = i
  · subst hi
    rw [Function.update_same]
    simp only [List.count_nil]
    rw [huse]
    have := hs i' w
    simp [this]
  · rw [Function.update_noteq hi, hop, huse]
    simp [hi]
    exact hs i' w

theorem counted_implies_linked (s : UseDefState) (h : UseDefCounted s) :
    UseDefLinked s := by
  intro i v
  rw [← List.count_pos_iff, ← List.count_pos_iff, h i v]

/-- C1: in a state satisfying the counting use-def invariant (each value
occurs as an operand of an instruction exactly as often as the
instruction is recorded among its users), an instruction uses a value
iff it is in that value's user collection, in both directions; and every
operand mutation of Instr.cc (construction of an instruction with fresh
empty operands, addOperand, setOperand on an in-range slot,
replaceOperand, clearOperands, and destruction) preserves the
invariant. -/
theorem C1_use_def_links (s : UseDefState) :
    (UseDefCounted s →
      ∀ i v, some v ∈ s.operands i ↔ i ∈ s.uses v) ∧
    (UseDefCounted s → ∀ i ops, s.operands i = [] →
        UseDefCounted (instrInit s i ops)) ∧
    (UseDefCounted s → ∀ i v, UseDefCounted (addOperand s i v)) ∧
    (UseDefCounted s → ∀ i k v, k < (s.operands i).length →
        UseDefCounted (setOperand s i k v)) ∧
    (UseDefCounted s → ∀ i old new',
        UseDefCounted (replaceOperand s i old new')) ∧
    (UseDefCounted s → ∀ i, UseDefCounted (clearOperands s i)) ∧
    (UseDefCounted s → ∀ i, UseDefCounted (instrDestruct s i)) :=
  ⟨fun hs => counted_implies_linked s hs,
   fun hs i ops hfresh => instrInit_counted s i ops hs hfresh,
   fun hs i v => addOperand_counted s i v hs,
   fun hs i k v hk => setOperand_counted s i k v hs hk,
   fun hs i old new' => replaceOperand_counted s i old new' hs,
   fun hs i => clearOperands_counted s i hs,
   fun hs i => instrDestruct_counted s i hs⟩

/-- Witness for C1 at the empty state and a concrete addOperand. -/
theorem C1_use_def_links_witness :
    UseDefCounted
      (addOperand (⟨fun _ => [], fun _ => []⟩ : UseDefState) 0 1) ∧
    (some 1 ∈
        (addOperand (⟨fun _ => [], fun _ => []⟩ : UseDefState) 0
          1).operands 0 ↔
      0 ∈ (addOperand (⟨fun _ => [], fun _ => []⟩ : UseDefState) 0
          1).uses 1) := by
  have h1 := (C1_use_def_links ⟨fun _ => [], fun _ => []⟩).2.2.1
    (fun i v => rfl) 0 1
  exact ⟨h1,
    (C1_use_def_links
      (addOperand (⟨fun _ => [], fun _ => []⟩ : UseDefState) 0 1)).1 h1 0 1⟩

theorem blockInstrs_emit (g : CGState) (ins : MInstr) (b : Nat) :
    blockInstrs (emitInstr g ins) b =
      if b = g.cur then (blockInstrs g b).map (fun l => l ++ [ins])
      else blockInstrs g b := by
  simp only [blockInstrs, emitInstr]
  have hmap : ∀ (l : List (Nat × List MInstr)),
      (l.map (fun p => if p.1 = g.cur then (p.1, p.2 ++ [ins]) else p)).find?
          (fun p => p.1 = b) =
        (l.find? (fun p => p.1 = b)).map
          (fun p => if p.1 = g.cur then (p.1, p.2 ++ [ins]) else p) := by
    intro l
    induction l with
    | nil => rfl
    | cons p ps ih =>
        simp only [List.map_cons, List.find?_cons]
        by_cases hpc : p.1 = g.cur
        · by_cases hpb : p.1 = b
          · rw [if_pos hpc]
            rw [show (decide ((p.1, p.2 ++ [ins]).1 = b)) = true by
                  simp [hpb]]
            dsimp only
            simp [hpc]
          · rw [if_pos hpc]
            rw [show (decide ((p.1, p.2 ++ [ins]).1 = b)) = false by
                  simp [hpb]]
            dsimp only
            exact ih
        · by_cases hpb : p.1 = b
          · rw [if_neg hpc]
            rw [show (decide (p.1 = b)) = true by simp [hpb]]
            dsimp only
            simp [hpc]
          · rw [if_neg hpc]
            rw [show (decide (p.1 = b)) = false by simp [hpb]]
            dsimp only
            exact ih
  rw [hmap]
  rcases hf : g.blocks.find? (fun p => decide (p.1 = b)) with _ | p
  · rw [hf]
    simp
  · rw [hf]
    have hpb : p.1 = b := by
      have := List.find?_some hf
      simpa using this
    by_cases hbc : b = g.cur
    · rw [if_pos hbc]
      simp [Function.comp, hpb.trans hbc]
    · rw [if_neg hbc]
      simp [Function.comp,
            show ¬ p.1 = g.cur from by rw [hpb]; exact hbc]

theorem blockInstrs_create (g : CGState) (b : Nat)
    (hlt : ∀ p ∈ g.blocks, p.1 < g.nextBlock) :
    blockInstrs (createBlock g).2 b =
      if b = g.nextBlock then some [] else blockInstrs g b := by
  simp only [blockInstrs, createBlock, List.find?_append]
  by_cases hb : b = g.nextBlock
  · rw [if_pos hb]
    have hnone : g.blocks.find? (fun p => decide (p.1 = b)) = none := by
      rw [List.find?_eq_none]
      intro p hp
      simp only [decide_eq_true_eq]
      intro he
      have hlt2 := hlt p hp
      omega
    rw [hnone]
    subst hb
    simp [List.find?_cons]
  · rw [if_neg hb]
    have hsing :
        ([(g.nextBlock, ([] : List MInstr))].find?
          (fun p => decide (p.1 = b))) = none := by
      rw [List.find?_eq_none]
      intro p hp
      simp only [List.mem_singleton] at hp
      subst hp
      simp only [decide_eq_true_eq]
      exact fun h => hb h.symm
    rw [hsing]
    cases g.blocks.find? (fun p => decide (p.1 = b)) <;> rfl

theorem blockInstrs_keys_emit (g : CGState) (ins : MInstr)
    (p : Nat × List MInstr) (hp : p ∈ (emitInstr g ins).blocks) :
    ∃ q ∈ g.blocks, p.1 = q.1 := by
  simp only [emitInstr, List.mem_map] at hp
  rcases hp with ⟨q, hq, hpq⟩
  refine ⟨q, hq, ?_⟩
  by_cases hc : q.1 = g.cur
  · simp only [hc, if_pos rfl] at hpq
    rw [← hpq]
    exact hc.symm
  · simp only [if_neg hc] at hpq
    rw [← hpq]

theorem cgExtends_refl (g : CGState)
    (hlt : ∀ p ∈ g.blocks, p.1 < g.nextBlock) (hcur : g.cur < g.nextBlock) :
    CGExtends g g :=
  ⟨hlt, hcur, le_refl _, Or.inl rfl, fun _ _ _ => rfl,
   fun b i0 h => ⟨[], by rw [List.append_nil]; exact h⟩, fun h => h,
   fun b hb1 hb2 => absurd hb2 (by omega), fun h => h⟩

theorem cgExtends_trans {g g' g'' : CGState}
    (h1 : CGExtends g g') (h2 : CGExtends g' g'') : CGExtends g g'' := by
  obtain ⟨a1, a2, a3, a4, a5, a6, a7, a8, a9⟩ := h1
  obtain ⟨b1, b2, b3, b4, b5, b6, b7, b8, b9⟩ := h2
  refine ⟨b1, b2, le_trans a3 b3, ?_, ?_, ?_, fun h => b7 (a7 h), ?_,
    fun h => b9 (a9 h)⟩
  · rcases b4 with hb | hb
    · rw [hb]
      exact a4
    · exact Or.inr (le_trans a3 hb)
  · intro b hb hbc
    have hne : b ≠ g'.cur := by
      rcases a4 with ha | ha
      · rw [ha]
        exact hbc
      · omega
    rw [b5 b (lt_of_lt_of_le hb a3) hne]
    exact a5 b hb hbc
  · intro b i0 h
    rcases a6 b i0 h with ⟨t1, ht1⟩
    rcases b6 b (i0 ++ t1) ht1 with ⟨t2, ht2⟩
    exact ⟨t1 ++ t2, by rw [ht2, List.append_assoc]⟩
  · intro b hb1 hb2
    by_cases hb : b < g'.nextBlock
    · rcases Option.isSome_iff_exists.mp (a8 b hb1 hb) with ⟨x, hx⟩
      rcases b6 b x hx with ⟨t, ht⟩
      rw [ht]
      simp
    · exact b8 b (by omega) hb2

theorem cgExtends_emit {g gX : CGState} (h : CGExtends g gX) (ins : MInstr)
    (hins : notBorInstr ins = true) :
    CGExtends g (emitInstr gX ins) := by
  obtain ⟨a1, a2, a3, a4, a5, a6, a7, a8, a9⟩ := h
  have hblocks : ∀ b, blockInstrs (emitInstr gX ins) b =
      if b = gX.cur then (blockInstrs gX b).map (fun l => l ++ [ins])
      else blockInstrs gX b := fun b => blockInstrs_emit gX ins b
  refine ⟨?_, a2, a3, a4, ?_, ?_, ?_, ?_, ?_⟩
  · intro p hp
    rcases blockInstrs_keys_emit gX ins p hp with ⟨q, hq, hpq⟩
    rw [hpq]
    exact a1 q hq
  · intro b hb hbc
    rw [hblocks]
    have hne : b ≠ gX.cur := by
      rcases a4 with ha | ha
      · rw [ha]
        exact hbc
      · omega
    rw [if_neg hne]
    exact a5 b hb hbc
  · intro b i0 h0
    rcases a6 b i0 h0 with ⟨t1, ht1⟩
    rw [hblocks]
    by_cases hbc : b = gX.cur
    · exact ⟨t1 ++ [ins], by rw [if_pos hbc, ht1]; simp⟩
    · exact ⟨t1, by rw [if_neg hbc]; exact ht1⟩
  · intro hsome
    have hcg : (emitInstr gX ins).cur = gX.cur := rfl
    rw [hcg, hblocks, if_pos rfl]
    have h7 := a7 hsome
    rcases hx : blockInstrs gX gX.cur with _ | x
    · rw [hx] at h7
      exact absurd h7 (by simp)
    · simp
  · intro b hb1 hb2
    rw [hblocks]
    by_cases hbc : b = gX.cur
    · rw [if_pos hbc]
      rcases Option.isSome_iff_exists.mp (a8 b hb1 hb2) with ⟨x, hx⟩
      rw [hx]
      simp
    · rw [if_neg hbc]
      exact a8 b hb1 hb2
  · intro hnb
    have h9 := a9 hnb
    simp only [noBorState, List.all_eq_true] at h9
    simp only [noBorState, emitInstr, List.all_eq_true, List.mem_map]
    rintro p ⟨q, hq, rfl⟩
    by_cases hc : q.1 = gX.cur
    · rw [if_pos hc]
      intro x hx
      rcases List.mem_append.mp hx with hx | hx
      · exact h9 q hq x hx
      · rw [List.mem_singleton.mp hx]
        exact hins
    · rw [if_neg hc]
      exact h9 q hq

theorem cgExtends_create {g gX : CGState} (h : CGExtends g gX) :
    CGExtends g (createBlock gX).2 := by
  obtain ⟨a1, a2, a3, a4, a5, a6, a7, a8, a9⟩ := h
  have hblocks : ∀ b, blockInstrs (createBlock gX).2 b =
      if b = gX.nextBlock then some [] else blockInstrs gX b :=
    fun b => blockInstrs_create gX b a1
  refine ⟨?_, by simp [createBlock]; omega, ?_, ?_, ?_, ?_, ?_, ?_, ?_⟩
  · intro p hp
    simp only [createBlock, List.mem_append, List.mem_singleton] at hp
    rcases hp with hp | hp
    · have := a1 p hp
      simp only [createBlock]
      omega
    · rw [hp]
      simp [createBlock]
  · simp only [createBlock]
    omega
  · rcases a4 with ha | ha
    · exact Or.inl ha
    · exact Or.inr ha
  · intro b hb hbc
    rw [hblocks, if_neg (by omega)]
    exact a5 b hb hbc
  · intro b i0 h0
    rcases a6 b i0 h0 with ⟨t1, ht1⟩
    refine ⟨t1, ?_⟩
    rw [hblocks, if_neg ?_]
    · exact ht1
    · intro hbn
      rw [hbn] at ht1
      have : blockInstrs gX gX.nextBlock = none := by
        simp only [blockInstrs]
        rw [List.find?_eq_none.mpr]
        · rfl
        · intro p hp
          simp only [decide_eq_true_eq]
          have := a1 p hp
          omega
      rw [this] at ht1
      exact absurd ht1 (by simp)
  · intro hsome
    have := a7 hsome
    have hcg : ((createBlock gX).2).cur = gX.cur := rfl
    rw [hcg, hblocks, if_neg (by omega)]
    exact this
  · intro b hb1 hb2
    rw [hblocks]
    by_cases hbn : b = gX.nextBlock
    · rw [if_pos hbn]
      simp
    · rw [if_neg hbn]
      refine a8 b hb1 ?_
      have hb2' : b < gX.nextBlock + 1 := hb2
      omega
  · intro hnb
    have h9 := a9 hnb
    simp only [noBorState, List.all_eq_true] at h9
    simp only [noBorState, createBlock, List.all_eq_true, List.mem_append,
               List.mem_singleton]
    intro p hp
    rcases hp with hp | hp
    · exact h9 p hp
    · rw [hp]
      intro x hx
      exact absurd hx (List.not_mem_nil x)

theorem cgExtends_setIP {g gX : CGState} (h : CGExtends g gX) (c : Nat)
    (h1 : g.nextBlock ≤ c) (h2 : c < gX.nextBlock) :
    CGExtends g (setInsertPoint gX c) := by
  obtain ⟨a1, a2, a3, a4, a5, a6, a7, a8, a9⟩ := h
  exact ⟨a1, h2, a3, Or.inr h1, a5, a6, fun _ => a8 c h1 h2, a8, a9⟩

theorem codegen_cgExtends (e : MExpr) : ∀ (g : CGState),
    (∀ p ∈ g.blocks, p.1 < g.nextBlock) → g.cur < g.nextBlock →
    CGExtends g (codegen g e).1 := by
  induction e with
  | leaf =>
      intro g hlt hcur
      obtain ⟨c1, c2, c3, c4, c5, c6, c7, c8, c9⟩ := cgExtends_refl g hlt hcur
      exact ⟨c1, c2, c3, c4, c5, c6, c7, c8, c9⟩
  | bin op l r ihl ihr =>
      intro g hlt hcur
      by_cases hop : op = Opcode.BOR
      · subst hop
        set A := createBlock g with hA
        set B := createBlock A.2 with hB
        set C := createBlock B.2 with hC
        set g3 : CGState := { C.2 with nextVal := C.2.nextVal + 1 } with hg3
        set g4 := emitInstr g3 (MInstr.alloca C.2.nextVal) with hg4
        set lhs := codegen g4 l with hlhs
        set g5 := emitInstr lhs.1 (MInstr.condbr lhs.2 A.1 B.1) with hg5
        set g6 := setInsertPoint g5 A.1 with hg6
        set g7 := emitInstr g6 (MInstr.store C.2.nextVal lhs.2) with hg7
        set g8 := emitInstr g7 (MInstr.br C.1) with hg8
        set g9 := setInsertPoint g8 B.1 with hg9
        set rhs := codegen g9 r with hrhs
        set g10 := emitInstr rhs.1 (MInstr.store C.2.nextVal rhs.2) with hg10
        set g11 := emitInstr g10 (MInstr.br C.1) with hg11
        have hA1 : A.1 = g.nextBlock := by rw [hA]; rfl
        have hB1 : B.1 = g.nextBlock + 1 := by rw [hB, hA]; rfl
        have hC1 : C.1 = g.nextBlock + 2 := by rw [hC, hB, hA]; rfl
        have hg4nb : g4.nextBlock = g.nextBlock + 3 := by
          rw [hg4, hg3, hC, hB, hA]; rfl
        have eA : CGExtends g A.2 := by
          rw [hA]
          exact cgExtends_create (cgExtends_refl g hlt hcur)
        have eB : CGExtends g B.2 := by
          rw [hB]
          exact cgExtends_create eA
        have eC : CGExtends g C.2 := by
          rw [hC]
          exact cgExtends_create eB
        have eg3 : CGExtends g g3 := by
          rw [hg3]
          obtain ⟨c1, c2, c3, c4, c5, c6, c7, c8, c9⟩ := eC
          exact ⟨c1, c2, c3, c4, c5, c6, c7, c8, c9⟩
        have eg4 : CGExtends g g4 := by
          rw [hg4]
          exact cgExtends_emit eg3 _ rfl
        have elhs : CGExtends g4 lhs.1 := by
          rw [hlhs]
          exact ihl g4 eg4.1 eg4.2.1
        have hlhs3 : g4.nextBlock ≤ lhs.1.nextBlock := elhs.2.2.1
        have eglhs : CGExtends g lhs.1 := cgExtends_trans eg4 elhs
        have eg5 : CGExtends g g5 := by
          rw [hg5]
          exact cgExtends_emit eglhs _ rfl
        have h5nb : g5.nextBlock = lhs.1.nextBlock := by rw [hg5]; rfl
        have eg6 : CGExtends g g6 := by
          rw [hg6]
          exact cgExtends_setIP eg5 A.1 (by omega) (by omega)
        have eg7 : CGExtends g g7 := by
          rw [hg7]
          exact cgExtends_emit eg6 _ rfl
        have eg8 : CGExtends g g8 := by
          rw [hg8]
          exact cgExtends_emit eg7 _ rfl
        have h8nb : g8.nextBlock = lhs.1.nextBlock := by rw [hg8, hg7, hg6, hg5]; rfl
        have eg9 : CGExtends g g9 := by
          rw [hg9]
          exact cgExtends_setIP eg8 B.1 (by omega) (by omega)
        have erhs : CGExtends g9 rhs.1 := by
          rw [hrhs]
          exact ihr g9 eg9.1 eg9.2.1
        have h9nb : g9.nextBlock = lhs.1.nextBlock := by
          rw [hg9]
          exact h8nb
        have hrhs3 : g9.nextBlock ≤ rhs.1.nextBlock := erhs.2.2.1
        have egrhs : CGExtends g rhs.1 := cgExtends_trans eg9 erhs
        have eg10 : CGExtends g g10 := by
          rw [hg10]
          exact cgExtends_emit egrhs _ rfl
        have eg11 : CGExtends g g11 := by
          rw [hg11]
          exact cgExtends_emit eg10 _ rfl
        have h11nb : g11.nextBlock = rhs.1.nextBlock := by rw [hg11, hg10]; rfl
        have efinal : CGExtends g (setInsertPoint g11 C.1) :=
          cgExtends_setIP eg11 C.1 (by omega) (by omega)
        have hgoal : (codegen g (MExpr.bin Opcode.BOR l r)).1 =
            setInsertPoint g11 C.1 := by
          rw [hg11, hg10, hrhs, hg9, hg8, hg7, hg6, hg5, hlhs, hg4, hg3, hC,
              hB, hA]
          rfl
        rw [hgoal]
        exact efinal
      · have elhs : CGExtends g (codegen g l).1 := ihl g hlt hcur
        have erhs : CGExtends (codegen g l).1 (codegen (codegen g l).1 r).1 :=
          ihr (codegen g l).1 elhs.1 elhs.2.1
        have eboth : CGExtends g (codegen (codegen g l).1 r).1 :=
          cgExtends_trans elhs erhs
        by_cases hirb : irBinaryOp op = true
        · have hgoal : (codegen g (MExpr.bin op l r)).1 =
              emitInstr
                { (codegen (codegen g l).1 r).1 with
                  nextVal := (codegen (codegen g l).1 r).1.nextVal + 1 }
                (MInstr.binInstr op (codegen g l).2 (codegen (codegen g l).1 r).2
                  (codegen (codegen g l).1 r).1.nextVal) := by
            simp only [codegen]
            rw [if_neg hop, if_pos hirb]
          rw [hgoal]
          have e2 : CGExtends g
              { (codegen (codegen g l).1 r).1 with
                nextVal := (codegen (codegen g l).1 r).1.nextVal + 1 } := by
            obtain ⟨c1, c2, c3, c4, c5, c6, c7, c8, c9⟩ := eboth
            exact ⟨c1, c2, c3, c4, c5, c6, c7, c8, c9⟩
          exact cgExtends_emit e2 _
            (by simp only [notBorInstr, decide_eq_true_eq]; exact hop)
        · have hgoal : (codegen g (MExpr.bin op l r)).1 =
              { (codegen (codegen g l).1 r).1 with
                bugs := (codegen (codegen g l).1 r).1.bugs + 1 } := by
            simp only [codegen]
            rw [if_neg hop, if_neg hirb]
          rw [hgoal]
          obtain ⟨c1, c2, c3, c4, c5, c6, c7, c8, c9⟩ := eboth
          exact ⟨c1, c2, c3, c4, c5, c6, c7, c8, c9⟩

set_option maxHeartbeats 1600000 in
theorem codegen_borDiamond (l r : MExpr) (g : CGState)
    (hlt : ∀ p ∈ g.blocks, p.1 < g.nextBlock) (hcur : g.cur < g.nextBlock)
    (hsome : (blockInstrs g g.cur).isSome) :
    borDiamond l r g := by
  obtain ⟨A, hA⟩ : ∃ y, y = createBlock g := ⟨_, rfl⟩
  obtain ⟨B, hB⟩ : ∃ y, y = createBlock A.2 := ⟨_, rfl⟩
  obtain ⟨C, hC⟩ : ∃ y, y = createBlock B.2 := ⟨_, rfl⟩
  obtain ⟨g3, hg3⟩ : ∃ y : CGState,
      y = { C.2 with nextVal := C.2.nextVal + 1 } := ⟨_, rfl⟩
  obtain ⟨g4, hg4⟩ : ∃ y, y = emitInstr g3 (MInstr.alloca C.2.nextVal) :=
    ⟨_, rfl⟩
  obtain ⟨lhs, hlhs⟩ : ∃ y, y = codegen g4 l := ⟨_, rfl⟩
  obtain ⟨g5, hg5⟩ : ∃ y, y = emitInstr lhs.1 (MInstr.condbr lhs.2 A.1 B.1) :=
    ⟨_, rfl⟩
  obtain ⟨g6, hg6⟩ : ∃ y, y = setInsertPoint g5 A.1 := ⟨_, rfl⟩
  obtain ⟨g7, hg7⟩ : ∃ y, y = emitInstr g6 (MInstr.store C.2.nextVal lhs.2) :=
    ⟨_, rfl⟩
  obtain ⟨g8, hg8⟩ : ∃ y, y = emitInstr g7 (MInstr.br C.1) := ⟨_, rfl⟩
  obtain ⟨g9, hg9⟩ : ∃ y, y = setInsertPoint g8 B.1 := ⟨_, rfl⟩
  obtain ⟨rhs, hrhs⟩ : ∃ y, y = codegen g9 r := ⟨_, rfl⟩
  obtain ⟨g10, hg10⟩ : ∃ y, y = emitInstr rhs.1 (MInstr.store C.2.nextVal rhs.2) :=
    ⟨_, rfl⟩
  obtain ⟨g11, hg11⟩ : ∃ y, y = emitInstr g10 (MInstr.br C.1) := ⟨_, rfl⟩
  have hA1 : A.1 = g.nextBlock := by rw [hA]; rfl
  have hB1 : B.1 = g.nextBlock + 1 := by rw [hB, hA]; rfl
  have hC1 : C.1 = g.nextBlock + 2 := by rw [hC, hB, hA]; rfl
  have hA2nb : A.2.nextBlock = g.nextBlock + 1 := by rw [hA]; rfl
  have hB2nb : B.2.nextBlock = g.nextBlock + 2 := by rw [hB, hA]; rfl
  have hC2nb : C.2.nextBlock = g.nextBlock + 3 := by rw [hC, hB, hA]; rfl
  have hg3cur : g3.cur = g.cur := by rw [hg3, hC, hB, hA]; rfl
  have hg4cur : g4.cur = g.cur := by rw [hg4]; exact hg3cur
  have hg4nb : g4.nextBlock = g.nextBlock + 3 := by rw [hg4, hg3]; exact hC2nb
  have eA : CGExtends g A.2 := by
    rw [hA]
    exact cgExtends_create (cgExtends_refl g hlt hcur)
  have eB : CGExtends g B.2 := by
    rw [hB]
    exact cgExtends_create eA
  have eC : CGExtends g C.2 := by
    rw [hC]
    exact cgExtends_create eB
  have eg3 : CGExtends g g3 := by
    rw [hg3]
    obtain ⟨c1, c2, c3, c4, c5, c6, c7, c8, c9⟩ := eC
    exact ⟨c1, c2, c3, c4, c5, c6, c7, c8, c9⟩
  have eg4 : CGExtends g g4 := by
    rw [hg4]
    exact cgExtends_emit eg3 _ rfl
  have elhs : CGExtends g4 lhs.1 := by
    rw [hlhs]
    exact codegen_cgExtends l g4 eg4.1 eg4.2.1
  have hlhs3 : g4.nextBlock ≤ lhs.1.nextBlock := elhs.2.2.1
  have hL2 : lhs.1.cur < lhs.1.nextBlock := elhs.2.1
  have hLcur : lhs.1.cur = g.cur ∨ g.nextBlock + 3 ≤ lhs.1.cur := by
    have h4 := elhs.2.2.2.1
    rw [hg4cur, hg4nb] at h4
    exact h4
  have eglhs : CGExtends g lhs.1 := cgExtends_trans eg4 elhs
  have eg5 : CGExtends g g5 := by
    rw [hg5]
    exact cgExtends_emit eglhs _ rfl
  have h5nb : g5.nextBlock = lhs.1.nextBlock := by rw [hg5]; rfl
  have hg5cur : g5.cur = lhs.1.cur := by rw [hg5]; rfl
  have pk1 : g.nextBlock ≤ A.1 ∧ A.1 < g5.nextBlock := by
    clear * - hA1 h5nb hlhs3 hg4nb
    omega
  have eg6 : CGExtends g g6 := by
    rw [hg6]
    exact cgExtends_setIP eg5 A.1 pk1.1 pk1.2
  have hg6cur : g6.cur = A.1 := by rw [hg6]; rfl
  have eg7 : CGExtends g g7 := by
    rw [hg7]
    exact cgExtends_emit eg6 _ rfl
  have hg7cur : g7.cur = A.1 := by rw [hg7]; exact hg6cur
  have eg8 : CGExtends g g8 := by
    rw [hg8]
    exact cgExtends_emit eg7 _ rfl
  have h8nb : g8.nextBlock = lhs.1.nextBlock := by
    rw [hg8, hg7, hg6]
    exact h5nb
  have pk2 : g.nextBlock ≤ B.1 ∧ B.1 < g8.nextBlock := by
    clear * - hB1 h8nb hlhs3 hg4nb
    omega
  have eg9 : CGExtends g g9 := by
    rw [hg9]
    exact cgExtends_setIP eg8 B.1 pk2.1 pk2.2
  have hg9cur : g9.cur = B.1 := by rw [hg9]; rfl
  have h9nb : g9.nextBlock = lhs.1.nextBlock := by rw [hg9]; exact h8nb
  have erhs : CGExtends g9 rhs.1 := by
    rw [hrhs]
    exact codegen_cgExtends r g9 eg9.1 eg9.2.1
  have hrhs3 : g9.nextBlock ≤ rhs.1.nextBlock := erhs.2.2.1
  have hR2 : rhs.1.cur < rhs.1.nextBlock := erhs.2.1
  have hRcur : rhs.1.cur = B.1 ∨ lhs.1.nextBlock ≤ rhs.1.cur := by
    have h4 := erhs.2.2.2.1
    rw [hg9cur, h9nb] at h4
    exact h4
  have hg10cur : g10.cur = rhs.1.cur := by rw [hg10]; rfl
  have hne_A_L : A.1 ≠ lhs.1.cur := by
    clear * - hA1 hcur hLcur
    rcases hLcur with h | h <;> omega
  have hne_B_L : B.1 ≠ lhs.1.cur := by
    clear * - hB1 hcur hLcur
    rcases hLcur with h | h <;> omega
  have hne_C_L : C.1 ≠ lhs.1.cur := by
    clear * - hC1 hcur hLcur
    rcases hLcur with h | h <;> omega
  have hne_A_R : A.1 ≠ rhs.1.cur := by
    clear * - hA1 hB1 hcur hRcur hlhs3 hg4nb
    rcases hRcur with h | h <;> omega
  have hne_C_R : C.1 ≠ rhs.1.cur := by
    clear * - hC1 hB1 hcur hRcur hlhs3 hg4nb
    rcases hRcur with h | h <;> omega
  have hne_L_R : lhs.1.cur ≠ rhs.1.cur := by
    clear * - hLcur hRcur hL2 hcur hB1 hlhs3 hg4nb
    rcases hLcur with h1 | h1 <;> rcases hRcur with h2 | h2 <;> omega
  have hne7 : A.1 ≠ A.2.nextBlock := by
    clear * - hA1 hA2nb
    omega
  have hne8 : A.1 ≠ B.2.nextBlock := by
    clear * - hA1 hB2nb
    omega
  have hne9 : B.1 ≠ B.2.nextBlock := by
    clear * - hB1 hB2nb
    omega
  have hne10 : g.cur ≠ g.nextBlock := by
    clear * - hcur
    omega
  have hne11 : g.cur ≠ A.2.nextBlock := by
    clear * - hcur hA2nb
    omega
  have hne12 : g.cur ≠ B.2.nextBlock := by
    clear * - hcur hB2nb
    omega
  have hne13 : A.1 ≠ g3.cur := by
    clear * - hA1 hg3cur hcur
    omega
  have hne14 : B.1 ≠ g3.cur := by
    clear * - hB1 hg3cur hcur
    omega
  have hne15 : C.1 ≠ g3.cur := by
    clear * - hC1 hg3cur hcur
    omega
  have hlt16 : A.1 < g4.nextBlock := by
    clear * - hA1 hg4nb
    omega
  have hne17 : A.1 ≠ g4.cur := by
    clear * - hA1 hg4cur hcur
    omega
  have hlt18 : B.1 < g4.nextBlock := by
    clear * - hB1 hg4nb
    omega
  have hne19 : B.1 ≠ g4.cur := by
    clear * - hB1 hg4cur hcur
    omega
  have hlt20 : C.1 < g4.nextBlock := by
    clear * - hC1 hg4nb
    omega
  have hne21 : C.1 ≠ g4.cur := by
    clear * - hC1 hg4cur hcur
    omega
  have hne22 : B.1 ≠ g7.cur := by
    clear * - hB1 hg7cur hA1
    omega
  have hne23 : B.1 ≠ g6.cur := by
    clear * - hB1 hg6cur hA1
    omega
  have hne24 : C.1 ≠ g7.cur := by
    clear * - hC1 hg7cur hA1
    omega
  have hne25 : C.1 ≠ g6.cur := by
    clear * - hC1 hg6cur hA1
    omega
  have hne26 : lhs.1.cur ≠ g7.cur := by
    clear * - hg7cur hA1 hcur hLcur
    rcases hLcur with h | h <;> omega
  have hne27 : lhs.1.cur ≠ g6.cur := by
    clear * - hg6cur hA1 hcur hLcur
    rcases hLcur with h | h <;> omega
  have hlt28 : A.1 < g9.nextBlock := by
    clear * - hA1 h9nb hlhs3 hg4nb
    omega
  have hne29 : A.1 ≠ g9.cur := by
    clear * - hA1 hg9cur hB1
    omega
  have hlt30 : C.1 < g9.nextBlock := by
    clear * - hC1 h9nb hlhs3 hg4nb
    omega
  have hne31 : C.1 ≠ g9.cur := by
    clear * - hC1 hg9cur hB1
    omega
  have hlt32 : lhs.1.cur < g9.nextBlock := by
    clear * - hL2 h9nb
    omega
  have hne33 : lhs.1.cur ≠ g9.cur := by
    clear * - hg9cur hB1 hcur hLcur
    rcases hLcur with h | h <;> omega
  have hne34 : A.1 ≠ g10.cur := by
    clear * - hg10cur hA1 hB1 hcur hRcur hlhs3 hg4nb
    rcases hRcur with h | h <;> omega
  have hne35 : C.1 ≠ g10.cur := by
    clear * - hg10cur hC1 hB1 hcur hRcur hlhs3 hg4nb
    rcases hRcur with h | h <;> omega
  have hne36 : lhs.1.cur ≠ g10.cur := by
    clear * - hg10cur hB1 hcur hLcur hRcur hL2 hlhs3 hg4nb
    rcases hLcur with h1 | h1 <;> rcases hRcur with h2 | h2 <;> omega
  have stepNe : ∀ (X : CGState) (ins : MInstr) (x : Nat), x ≠ X.cur →
      blockInstrs (emitInstr X ins) x = blockInstrs X x := by
    intro X ins x hx
    rw [blockInstrs_emit, if_neg hx]
  have hbA_A : blockInstrs A.2 A.1 = some [] := by
    rw [hA, blockInstrs_create g _ hlt,
        if_pos (show (createBlock g).1 = g.nextBlock from rfl)]
  have hbB_A : blockInstrs B.2 A.1 = some [] := by
    rw [hB, blockInstrs_create A.2 _ eA.1, if_neg hne7]
    exact hbA_A
  have hbC_A : blockInstrs C.2 A.1 = some [] := by
    rw [hC, blockInstrs_create B.2 _ eB.1, if_neg hne8]
    exact hbB_A
  have hbB_B : blockInstrs B.2 B.1 = some [] := by
    rw [hB, blockInstrs_create A.2 _ eA.1]
    rw [if_pos (show (createBlock A.2).1 = A.2.nextBlock from rfl)]
  have hbC_B : blockInstrs C.2 B.1 = some [] := by
    rw [hC, blockInstrs_create B.2 _ eB.1, if_neg hne9]
    exact hbB_B
  have hbC_C : blockInstrs C.2 C.1 = some [] := by
    rw [hC, blockInstrs_create B.2 _ eB.1]
    rw [if_pos (show (createBlock B.2).1 = B.2.nextBlock from rfl)]
  obtain ⟨cur0, hcur0⟩ := Option.isSome_iff_exists.mp hsome
  have hbA_cur : blockInstrs A.2 g.cur = some cur0 := by
    rw [hA, blockInstrs_create g _ hlt, if_neg hne10]
    exact hcur0
  have hbB_cur : blockInstrs B.2 g.cur = some cur0 := by
    rw [hB, blockInstrs_create A.2 _ eA.1, if_neg hne11]
    exact hbA_cur
  have hbC_cur : blockInstrs C.2 g.cur = some cur0 := by
    rw [hC, blockInstrs_create B.2 _ eB.1, if_neg hne12]
    exact hbB_cur
  have hq3 : ∀ x, blockInstrs g3 x = blockInstrs C.2 x := by
    intro x
    rw [hg3]
    rfl
  have hb4A : blockInstrs g4 A.1 = some [] := by
    rw [hg4, stepNe g3 _ A.1 hne13, hq3]
    exact hbC_A
  have hb4B : blockInstrs g4 B.1 = some [] := by
    rw [hg4, stepNe g3 _ B.1 hne14, hq3]
    exact hbC_B
  have hb4C : blockInstrs g4 C.1 = some [] := by
    rw [hg4, stepNe g3 _ C.1 hne15, hq3]
    exact hbC_C
  have hb4cur : blockInstrs g4 g.cur =
      some (cur0 ++ [MInstr.alloca C.2.nextVal]) := by
    rw [hg4, blockInstrs_emit, if_pos hg3cur.symm, hq3, hbC_cur]
    rfl
  have e5 := elhs.2.2.2.2.1
  have e6 := elhs.2.2.2.2.2.1
  have e7 := elhs.2.2.2.2.2.2.1
  have hbL_A : blockInstrs lhs.1 A.1 = some [] := by
    rw [e5 A.1 hlt16 hne17]
    exact hb4A
  have hbL_B : blockInstrs lhs.1 B.1 = some [] := by
    rw [e5 B.1 hlt18 hne19]
    exact hb4B
  have hbL_C : blockInstrs lhs.1 C.1 = some [] := by
    rw [e5 C.1 hlt20 hne21]
    exact hb4C
  have hLsome : (blockInstrs lhs.1 lhs.1.cur).isSome := by
    refine e7 ?_
    rw [hg4cur, hb4cur]
    rfl
  obtain ⟨eIns, heIns⟩ := Option.isSome_iff_exists.mp hLsome
  have hb5A : blockInstrs g5 A.1 = some [] := by
    rw [hg5, stepNe lhs.1 _ A.1 hne_A_L]
    exact hbL_A
  have hb5B : blockInstrs g5 B.1 = some [] := by
    rw [hg5, stepNe lhs.1 _ B.1 hne_B_L]
    exact hbL_B
  have hb5C : blockInstrs g5 C.1 = some [] := by
    rw [hg5, stepNe lhs.1 _ C.1 hne_C_L]
    exact hbL_C
  have hb5entry : blockInstrs g5 lhs.1.cur =
      some (eIns ++ [MInstr.condbr lhs.2 A.1 B.1]) := by
    rw [hg5, blockInstrs_emit, if_pos rfl, heIns]
    rfl
  have hq6 : ∀ x, blockInstrs g6 x = blockInstrs g5 x := by
    intro x
    rw [hg6]
    rfl
  have hb7A : blockInstrs g7 A.1 = some [MInstr.store C.2.nextVal lhs.2] := by
    rw [hg7, blockInstrs_emit, if_pos hg6cur.symm, hq6, hb5A]
    rfl
  have hb8A : blockInstrs g8 A.1 =
      some [MInstr.store C.2.nextVal lhs.2, MInstr.br C.1] := by
    rw [hg8, blockInstrs_emit, if_pos hg7cur.symm, hb7A]
    rfl
  have hb8B : blockInstrs g8 B.1 = some [] := by
    rw [hg8, stepNe g7 _ B.1 hne22, hg7, stepNe g6 _ B.1 hne23, hq6]
    exact hb5B
  have hb8C : blockInstrs g8 C.1 = some [] := by
    rw [hg8, stepNe g7 _ C.1 hne24, hg7, stepNe g6 _ C.1 hne25, hq6]
    exact hb5C
  have hb8entry : blockInstrs g8 lhs.1.cur =
      some (eIns ++ [MInstr.condbr lhs.2 A.1 B.1]) := by
    rw [hg8, stepNe g7 _ _ hne26, hg7, stepNe g6 _ _ hne27, hq6]
    exact hb5entry
  have hq9 : ∀ x, blockInstrs g9 x = blockInstrs g8 x := by
    intro x
    rw [hg9]
    rfl
  have e5r := erhs.2.2.2.2.1
  have e6r := erhs.2.2.2.2.2.1
  have e7r := erhs.2.2.2.2.2.2.1
  have hbR_A : blockInstrs rhs.1 A.1 =
      some [MInstr.store C.2.nextVal lhs.2, MInstr.br C.1] := by
    rw [e5r A.1 hlt28 hne29, hq9]
    exact hb8A
  have hbR_C : blockInstrs rhs.1 C.1 = some [] := by
    rw [e5r C.1 hlt30 hne31, hq9]
    exact hb8C
  have hbR_entry : blockInstrs rhs.1 lhs.1.cur =
      some (eIns ++ [MInstr.condbr lhs.2 A.1 B.1]) := by
    rw [e5r lhs.1.cur hlt32 hne33, hq9]
    exact hb8entry
  have hRsome : (blockInstrs rhs.1 rhs.1.cur).isSome := by
    refine e7r ?_
    rw [hg9cur, hq9, hb8B]
    rfl
  obtain ⟨rIns, hrIns⟩ := Option.isSome_iff_exists.mp hRsome
  have hb10R : blockInstrs g10 rhs.1.cur =
      some (rIns ++ [MInstr.store C.2.nextVal rhs.2]) := by
    rw [hg10, blockInstrs_emit, if_pos rfl, hrIns]
    rfl
  have hb11R : blockInstrs g11 rhs.1.cur =
      some (rIns ++ [MInstr.store C.2.nextVal rhs.2, MInstr.br C.1]) := by
    rw [hg11, blockInstrs_emit, if_pos hg10cur.symm, hb10R]
    simp
  have hb11A : blockInstrs g11 A.1 =
      some [MInstr.store C.2.nextVal lhs.2, MInstr.br C.1] := by
    rw [hg11, stepNe g10 _ A.1 hne34, hg10, stepNe rhs.1 _ A.1 hne_A_R]
    exact hbR_A
  have hb11C : blockInstrs g11 C.1 = some [] := by
    rw [hg11, stepNe g10 _ C.1 hne35, hg10, stepNe rhs.1 _ C.1 hne_C_R]
    exact hbR_C
  have hb11entry : blockInstrs g11 lhs.1.cur =
      some (eIns ++ [MInstr.condbr lhs.2 A.1 B.1]) := by
    rw [hg11, stepNe g10 _ _ hne36, hg10, stepNe rhs.1 _ _ hne_L_R]
    exact hbR_entry
  have hallocaL : ∃ post, blockInstrs lhs.1 g.cur =
      some (cur0 ++ MInstr.alloca C.2.nextVal :: post) := by
    obtain ⟨t, ht⟩ := e6 g.cur _ hb4cur
    exact ⟨t, by rw [ht]; simp⟩
  have stepP : ∀ (X : CGState) (ins : MInstr),
      (∃ post, blockInstrs X g.cur =
        some (cur0 ++ MInstr.alloca C.2.nextVal :: post)) →
      ∃ post, blockInstrs (emitInstr X ins) g.cur =
        some (cur0 ++ MInstr.alloca C.2.nextVal :: post) := by
    rintro X ins ⟨post, hpost⟩
    rw [blockInstrs_emit]
    by_cases hc : g.cur = X.cur
    · rw [if_pos hc, hpost]
      exact ⟨post ++ [ins], by simp⟩
    · rw [if_neg hc]
      exact ⟨post, hpost⟩
  have hP5 : ∃ post, blockInstrs g5 g.cur =
      some (cur0 ++ MInstr.alloca C.2.nextVal :: post) := by
    rw [hg5]
    exact stepP lhs.1 _ hallocaL
  have hP6 : ∃ post, blockInstrs g6 g.cur =
      some (cur0 ++ MInstr.alloca C.2.nextVal :: post) := by
    obtain ⟨post, hp⟩ := hP5
    exact ⟨post, by rw [hq6]; exact hp⟩
  have hP7 : ∃ post, blockInstrs g7 g.cur =
      some (cur0 ++ MInstr.alloca C.2.nextVal :: post) := by
    rw [hg7]
    exact stepP g6 _ hP6
  have hP8 : ∃ post, blockInstrs g8 g.cur =
      some (cur0 ++ MInstr.alloca C.2.nextVal :: post) := by
    rw [hg8]
    exact stepP g7 _ hP7
  have hP9 : ∃ post, blockInstrs g9 g.cur =
      some (cur0 ++ MInstr.alloca C.2.nextVal :: post) := by
    obtain ⟨post, hp⟩ := hP8
    exact ⟨post, by rw [hq9]; exact hp⟩
  have hPrhs : ∃ post, blockInstrs rhs.1 g.cur =
      some (cur0 ++ MInstr.alloca C.2.nextVal :: post) := by
    obtain ⟨post, hp⟩ := hP9
    obtain ⟨t, ht⟩ := e6r g.cur _ hp
    exact ⟨post ++ t, by rw [ht]; simp⟩
  have hP10 : ∃ post, blockInstrs g10 g.cur =
      some (cur0 ++ MInstr.alloca C.2.nextVal :: post) := by
    rw [hg10]
    exact stepP rhs.1 _ hPrhs
  have hP11 : ∃ post, blockInstrs g11 g.cur =
      some (cur0 ++ MInstr.alloca C.2.nextVal :: post) := by
    rw [hg11]
    exact stepP g10 _ hP10
  have hpair : codegen g (MExpr.bin Opcode.BOR l r) =
      (setInsertPoint g11 C.1, C.2.nextVal) := by
    rw [hg11, hg10, hrhs, hg9, hg8, hg7, hg6, hg5, hlhs, hg4, hg3, hC, hB, hA]
    rfl
  have hZ1 : (codegen g (MExpr.bin Opcode.BOR l r)).1 =
      setInsertPoint g11 C.1 := by rw [hpair]
  have hZ2 : (codegen g (MExpr.bin Opcode.BOR l r)).2 = C.2.nextVal := by
    rw [hpair]
  have hqZ : ∀ x, blockInstrs (setInsertPoint g11 C.1) x =
      blockInstrs g11 x := fun _ => rfl
  have hZC : blockInstrs (setInsertPoint g11 C.1) C.1 = some [] := by
    rw [hqZ]
    exact hb11C
  have hZA : blockInstrs (setInsertPoint g11 C.1) A.1 =
      some [MInstr.store C.2.nextVal lhs.2, MInstr.br C.1] := by
    rw [hqZ]
    exact hb11A
  have hZentry : blockInstrs (setInsertPoint g11 C.1) lhs.1.cur =
      some (eIns ++ [MInstr.condbr lhs.2 A.1 B.1]) := by
    rw [hqZ]
    exact hb11entry
  have hZR : blockInstrs (setInsertPoint g11 C.1) rhs.1.cur =
      some (rIns ++ [MInstr.store C.2.nextVal rhs.2, MInstr.br C.1]) := by
    rw [hqZ]
    exact hb11R
  obtain ⟨postZ, hpost⟩ := hP11
  have hZalloc : blockInstrs (setInsertPoint g11 C.1) g.cur =
      some (cur0 ++ MInstr.alloca C.2.nextVal :: postZ) := by
    rw [hqZ]
    exact hpost
  have hfinal : A.1 = g.nextBlock ∧ B.1 = g.nextBlock + 1 ∧
      C.1 = g.nextBlock + 2 ∧
      (codegen g (MExpr.bin Opcode.BOR l r)).1 = setInsertPoint g11 C.1 ∧
      (codegen g (MExpr.bin Opcode.BOR l r)).2 = C.2.nextVal ∧
      (setInsertPoint g11 C.1).cur = C.1 ∧
      blockInstrs (setInsertPoint g11 C.1) C.1 = some [] ∧
      blockInstrs (setInsertPoint g11 C.1) A.1 =
        some [MInstr.store C.2.nextVal lhs.2, MInstr.br C.1] ∧
      g9.cur = B.1 ∧
      (∃ pre, blockInstrs (setInsertPoint g11 C.1) lhs.1.cur =
        some (pre ++ [MInstr.condbr lhs.2 A.1 B.1])) ∧
      (∃ pre, blockInstrs (setInsertPoint g11 C.1) rhs.1.cur =
        some (pre ++ [MInstr.store C.2.nextVal rhs.2, MInstr.br C.1])) ∧
      (∃ pre post, blockInstrs (setInsertPoint g11 C.1) g.cur =
        some (pre ++ MInstr.alloca C.2.nextVal :: post)) :=
    ⟨hA1, hB1, hC1, hZ1, hZ2, rfl, hZC, hZA, hg9cur, ⟨eIns, hZentry⟩,
     ⟨rIns, hZR⟩, ⟨cur0, postZ, hZalloc⟩⟩
  rw [hg11, hg10, hrhs, hg9, hg8, hg7, hg6, hg5, hlhs, hg4, hg3, hC, hB, hA]
    at hfinal
  exact hfinal

/-- C5: the short-circuit `or` between two boolean operands is tagged
Opcode.BOR by makeOperator, but BOR is not in the binary-operation
dispatch map of IRGenerator::accept(BinaryExpr&) (irBinaryOp), so code
generation never emits a binary BOR instruction into any block; instead
it emits the control-flow diamond of borDiamond: a conditional branch on
the left value whose true block only stores the left value into the
shared alloca and jumps to the continuation, while the right operand's
code is generated with the insertion point on the false target, so it
executes only when the left operand is false. -/
theorem C5_short_circuit_or :
    makeOperator Token.Or LiteralType.Boolean LiteralType.Boolean
      = Opcode.BOR ∧
    irBinaryOp Opcode.BOR = false ∧
    (∀ (e : MExpr) (g : CGState),
      (∀ p ∈ g.blocks, p.1 < g.nextBlock) → g.cur < g.nextBlock →
      noBorState g = true → noBorState (codegen g e).1 = true) ∧
    (∀ (l r : MExpr) (g : CGState),
      (∀ p ∈ g.blocks, p.1 < g.nextBlock) → g.cur < g.nextBlock →
      (blockInstrs g g.cur).isSome → borDiamond l r g) := by
  refine ⟨rfl, rfl, ?_, ?_⟩
  · intro e g h1 h2 h3
    exact (codegen_cgExtends e g h1 h2).2.2.2.2.2.2.2.2 h3
  · intro l r g h1 h2 h3
    exact codegen_borDiamond l r g h1 h2 h3

theorem C5_short_circuit_or_witness :
    (∀ p ∈ (⟨[(0, [])], 0, 1, 0, 0⟩ : CGState).blocks,
      p.1 < (⟨[(0, [])], 0, 1, 0, 0⟩ : CGState).nextBlock) ∧
    (⟨[(0, [])], 0, 1, 0, 0⟩ : CGState).cur
      < (⟨[(0, [])], 0, 1, 0, 0⟩ : CGState).nextBlock ∧
    (blockInstrs (⟨[(0, [])], 0, 1, 0, 0⟩ : CGState)
      (⟨[(0, [])], 0, 1, 0, 0⟩ : CGState).cur).isSome ∧
    noBorState (⟨[(0, [])], 0, 1, 0, 0⟩ : CGState) = true ∧
    borDiamond MExpr.leaf MExpr.leaf (⟨[(0, [])], 0, 1, 0, 0⟩ : CGState) ∧
    noBorState (codegen (⟨[(0, [])], 0, 1, 0, 0⟩ : CGState)
      (MExpr.bin Opcode.BOR MExpr.leaf MExpr.leaf)).1 = true :=
  ⟨by decide, by decide, by decide, by decide,
   C5_short_circuit_or.2.2.2 MExpr.leaf MExpr.leaf _
     (by decide) (by decide) (by decide),
   C5_short_circuit_or.2.2.1 (MExpr.bin Opcode.BOR MExpr.leaf MExpr.leaf) _
     (by decide) (by decide) (by decide)⟩
